import Mathlib

/-!
Verification development for the shed tool manager.

This file shallowly embeds the core of the shed repository: the tool
identity package (tool/tool.go), the lockfile catalogue (lockfile/lockfile.go),
the request-set and apply pipeline (client/client.go), the lockfile path
resolver, and the cache install engine (cache package).  Pure Go functions
become Lean functions; stateful code becomes explicit state passing; Go
slice indexing that can panic is modelled with Option / dedicated result
constructors; the filesystem is a finite map from path strings to nodes.

External library code (golang.org/x/mod semver and module, the path and
filepath standard packages, encoding/json) is not part of the repository
source; those parts are modelled from the specification, and every such
definition carries a doc comment saying so.
-/

deriving instance DecidableEq for Except

namespace Shed

/-! ### Basic string helpers -/

/-- Splits a character list at the first occurrence of c.
Mirrors the strings.IndexByte based split in parseTool: returns the part
before the first c and the part after it, or none when c does not occur. -/
def breakAt (c : Char) : List Char → Option (List Char × List Char)
  | [] => none
  | x :: xs =>
    if x = c then some ([], xs)
    else (breakAt c xs).map (fun p => (x :: p.1, p.2))

/-- Modelled from the spec: name is the last path segment of the import path
(Go path.Base).  Empty input gives ".", an all-slash input gives "/",
otherwise trailing slashes are stripped and the segment after the last
slash is returned. -/
def pathBase (s : String) : String :=
  if s.data = [] then "."
  else
    let l := (s.data.reverse.dropWhile (fun c => c = '/')).reverse
    if l = [] then "/"
    else ⟨(l.reverse.takeWhile (fun c => c ≠ '/')).reverse⟩

example : pathBase "golang.org/x/tools/cmd/stringer" = "stringer" := by decide
example : pathBase "example.com" = "example.com" := by decide

/-! ### Semantic versions

Modelled from the spec: the canonical semver grammar of the glossary
(vMAJOR.MINOR.PATCH with optional -prerelease and +build), following the
parse structure of the golang.org/x/mod semver package that the repository
uses through semver.IsValid, semver.Canonical and semver.Prerelease. -/

/-- Fields produced by parsing a semantic version.  short is the suffix a
shorthand such as v1 or v1.2 is missing relative to the canonical form. -/
structure SemParsed where
  major : List Char
  minor : List Char
  patch : List Char
  short : List Char
  pre : List Char
  build : List Char
deriving DecidableEq

def isDigitCh (c : Char) : Bool := '0' ≤ c ∧ c ≤ '9'

def isIdentCh (c : Char) : Bool :=
  ('A' ≤ c ∧ c ≤ 'Z') ∨ ('a' ≤ c ∧ c ≤ 'z') ∨ ('0' ≤ c ∧ c ≤ '9') ∨ c = '-'

/-- A dot-separated numeric identifier must not have a leading zero. -/
def isBadNum (l : List Char) : Bool :=
  l.all isDigitCh ∧ 1 < l.length ∧ l.head? = some '0'

/-- Splits a character list into dot-separated segments. -/
def splitDots : List Char → List (List Char)
  | [] => [[]]
  | c :: rest =>
    if c = '.' then [] :: splitDots rest
    else
      match splitDots rest with
      | [] => [[c]]
      | s :: ss => (c :: s) :: ss

/-- Parses a decimal number prefix: a nonempty maximal run of digits with no
leading zero unless the number is exactly 0.  Returns the digits and the
remaining characters. -/
def parseNum : List Char → Option (List Char × List Char)
  | [] => none
  | c :: rest =>
    if isDigitCh c then
      let t := (c :: rest).takeWhile isDigitCh
      let r := (c :: rest).dropWhile isDigitCh
      if c = '0' ∧ t.length ≠ 1 then none else some (t, r)
    else none

/-- Whether a character list starts with the given character. -/
def headIs (c : Char) : List Char → Bool
  | [] => false
  | x :: _ => x = c

/-- Parses a prerelease suffix starting with a dash: dot-separated nonempty
identifier segments, numeric segments without leading zeros, stopping at a
plus sign. -/
def parsePre : List Char → Option (List Char × List Char)
  | [] => none
  | c :: rest =>
    if c = '-' then
      if (rest.takeWhile (fun x => x ≠ '+')).all (fun x => isIdentCh x ∨ x = '.') ∧
          (splitDots (rest.takeWhile (fun x => x ≠ '+'))).all
            (fun s => s ≠ [] ∧ ¬isBadNum s) then
        some ('-' :: rest.takeWhile (fun x => x ≠ '+'), rest.dropWhile (fun x => x ≠ '+'))
      else none
    else none

/-- Parses a build metadata suffix starting with a plus sign: dot-separated
nonempty identifier segments extending to the end of the version. -/
def parseBld : List Char → Option (List Char × List Char)
  | [] => none
  | c :: rest =>
    if c = '+' then
      if rest.all (fun x => isIdentCh x ∨ x = '.') ∧
          (splitDots rest).all (fun s => s ≠ []) then
        some ('+' :: rest, [])
      else none
    else none

/-- Parses a semantic version: a leading v, then major, optionally .minor,
optionally .patch, then optional prerelease and build parts.  Shorthand
versions record the missing suffix in the short field. -/
def svParse (s : String) : Option SemParsed :=
  if ¬headIs 'v' s.data then none
  else
    match parseNum s.data.tail with
    | none => none
    | some (maj, r1) =>
      if r1 = [] then some ⟨maj, ['0'], ['0'], '.' :: '0' :: '.' :: ['0'], [], []⟩
      else if ¬headIs '.' r1 then none
      else
        match parseNum r1.tail with
        | none => none
        | some (minr, r3) =>
          if r3 = [] then some ⟨maj, minr, ['0'], '.' :: ['0'], [], []⟩
          else if ¬headIs '.' r3 then none
          else
            match parseNum r3.tail with
            | none => none
            | some (pat, r5) =>
              match (if headIs '-' r5 then parsePre r5 else some ([], r5)) with
              | none => none
              | some (pre, r6) =>
                match (if headIs '+' r6 then parseBld r6 else some ([], r6)) with
                | none => none
                | some (bld, r7) =>
                  if r7 = [] then some ⟨maj, minr, pat, [], pre, bld⟩
                  else none

/-- semver.IsValid: whether the string is a valid (possibly shorthand)
semantic version. -/
def svIsValid (s : String) : Bool := (svParse s).isSome

/-- semver.Canonical: empty for invalid versions, the version with build
metadata removed, or the version with the shorthand suffix appended. -/
def svCanonical (s : String) : String :=
  match svParse s with
  | none => ""
  | some p =>
    if p.build ≠ [] then ⟨s.data.take (s.data.length - p.build.length)⟩
    else if p.short ≠ [] then s ++ ⟨p.short⟩
    else s

/-- semver.Prerelease: the prerelease suffix including its dash, or empty. -/
def svPrerelease (s : String) : String :=
  match svParse s with
  | none => ""
  | some p => ⟨p.pre⟩

example : svIsValid "v1.2.3" = true := by decide
example : svIsValid "" = false := by decide
example : svIsValid "master" = false := by decide
example : svCanonical "v1" = "v1.0.0" := by decide
example : svCanonical "v1.2" = "v1.2.0" := by decide
example : svCanonical "v1.2.3-beta.1" = "v1.2.3-beta.1" := by decide
example : svCanonical "v1.2.3+meta" = "v1.2.3" := by decide
example : svPrerelease "v1.2.3-beta.1" = "-beta.1" := by decide
example : svPrerelease "v1.2.3" = "" := by decide

/-! ### Module paths

Modelled from the spec: the ecosystem module-path grammar used by both parse
modes (at least one dot in the first segment, no reserved characters, no
leading or trailing slashes, per-segment constraints), following
golang.org/x/mod module.CheckPath. -/

def modPathOkCh (c : Char) : Bool :=
  c = '-' ∨ c = '.' ∨ c = '_' ∨ c = '~' ∨ ('0' ≤ c ∧ c ≤ '9') ∨
  ('A' ≤ c ∧ c ≤ 'Z') ∨ ('a' ≤ c ∧ c ≤ 'z')

def firstPathOkCh (c : Char) : Bool :=
  c = '-' ∨ c = '.' ∨ ('0' ≤ c ∧ c ≤ '9') ∨ ('a' ≤ c ∧ c ≤ 'z')

/-- One path element: nonempty, not all dots, no leading or trailing dot,
only allowed characters. -/
def checkElem (l : List Char) : Bool :=
  l ≠ [] ∧ ¬(l.all (fun c => c = '.')) ∧ l.head? ≠ some '.' ∧
  l.getLast? ≠ some '.' ∧ l.all modPathOkCh

/-- Splits a character list into slash-separated segments. -/
def splitSlash : List Char → List (List Char)
  | [] => [[]]
  | c :: rest =>
    if c = '/' then [] :: splitSlash rest
    else
      match splitSlash rest with
      | [] => [[c]]
      | s :: ss => (c :: s) :: ss

/-- module.CheckPath as a predicate: every slash-separated element is valid
and the first element contains a dot and uses only lower-case characters. -/
def checkPath (s : String) : Bool :=
  match splitSlash s.data with
  | [] => false
  | e :: es =>
    s.data ≠ [] ∧ s.data.head? ≠ some '-' ∧
    (e :: es).all checkElem ∧ e.contains '.' ∧ e.all firstPathOkCh

example : checkPath "golang.org/x/tools/cmd/stringer" = true := by decide
example : checkPath "foo/bar" = false := by decide
example : checkPath "example.com" = true := by decide
example : checkPath "a.com/x/" = false := by decide

/-- Modelled from the spec: escape rules map an uppercase letter X to !x and
pass other characters through. -/
def escapeChar (c : Char) : List Char :=
  if 'A' ≤ c ∧ c ≤ 'Z' then ['!', c.toLower] else [c]

def escapeChars (l : List Char) : List Char :=
  l.foldr (fun c acc => escapeChar c ++ acc) []

/-- module.EscapePath: validates the module path and escapes uppercase
letters.  Modelled from the spec. -/
def escapePath (s : String) : Option String :=
  if checkPath s ∧ ¬s.data.contains '!' then some ⟨escapeChars s.data⟩ else none

/-- module.EscapeVersion: version escaping mirrors path escaping.  Modelled
from the spec. -/
def escapeVersion (s : String) : Option String :=
  if s.data ≠ [] ∧ ¬s.data.contains '!' ∧ ¬s.data.contains '/' then
    some ⟨escapeChars s.data⟩
  else none

example : escapePath "github.com/Shopify/ejson" = some "github.com/!shopify/ejson" := by decide

/-! ### Tool identity (tool/tool.go, part_015 snapshot) -/

/-- A tool is an import path together with an optional version. -/
structure Tool where
  importPath : String
  version : String
deriving DecidableEq

instance : Inhabited Tool := ⟨⟨"", ""⟩⟩

/-- Tool.Name: the binary name, the last path segment of the import path. -/
def Tool.name (t : Tool) : String := pathBase t.importPath

/-- Tool.Module: importPath at version, or just the import path when the
version is empty. -/
def Tool.moduleStr (t : Tool) : String :=
  if t.version = "" then t.importPath else t.importPath ++ "@" ++ t.version

/-- Tool.HasSemver: the version is a valid semantic version and equals its
own canonical form, so shorthands are rejected. -/
def Tool.hasSemver (t : Tool) : Bool :=
  svIsValid t.version && (t.version == svCanonical t.version)

/-- Tool.Filepath: escaped import path, with at-sign and escaped version
appended when a version is present.  The platform slash is modelled as the
POSIX slash. -/
def Tool.filepath (t : Tool) : Option String :=
  match escapePath t.importPath with
  | none => none
  | some ep =>
    if t.version = "" then some ep
    else
      match escapeVersion t.version with
      | none => none
      | some ev => some (ep ++ "@" ++ ev)

/-- Tool.BinaryFilepath: the filepath joined with the binary name. -/
def Tool.binaryFilepath (t : Tool) : Option String :=
  (t.filepath).map (fun fp => fp ++ "/" ++ t.name)

example : Tool.hasSemver ⟨"a.com/x", "v1.2.3"⟩ = true := by decide
example : Tool.hasSemver ⟨"a.com/x", "v1.2"⟩ = false := by decide
example : Tool.hasSemver ⟨"a.com/x", "master"⟩ = false := by decide
example : Tool.hasSemver ⟨"a.com/x", ""⟩ = false := by decide
example : Tool.hasSemver ⟨"a.com/x", "v1.2.3+meta"⟩ = false := by decide

/-- Errors produced by parseTool. -/
inductive ParseErr
  | missingVersion
  | invalidPath
  | invalidVersion
deriving DecidableEq

/-- The common tail of parseTool after the at-sign split: path validation,
then in strict mode semantic version validation and canonicalisation. -/
def parseToolRest (ip ver : String) (strict : Bool) : Except ParseErr Tool :=
  if ¬checkPath ip then .error .invalidPath
  else if ¬strict then .ok ⟨ip, ver⟩
  else if ¬svIsValid ver then .error .invalidVersion
  else .ok ⟨ip, svCanonical ver⟩

/-- parseTool: splits the name at the first at-sign, rejects a dangling
at-sign, validates the import path, and in strict mode validates and
canonicalises the version. -/
def parseTool (name : String) (strict : Bool) : Except ParseErr Tool :=
  match breakAt '@' name.data with
  | some (l, r) =>
    if r = [] then .error .missingVersion
    else parseToolRest ⟨l⟩ ⟨r⟩ strict
  | none => parseToolRest name "" strict

/-- tool.Parse: strict parsing. -/
def toolParse (name : String) : Except ParseErr Tool := parseTool name true

/-- tool.ParseLax: lax parsing, version accepted verbatim. -/
def toolParseLax (name : String) : Except ParseErr Tool := parseTool name false

example : toolParse "a.com/x@v1" = .ok ⟨"a.com/x", "v1.0.0"⟩ := by decide
example : toolParseLax "a.com/x@v1" = .ok ⟨"a.com/x", "v1"⟩ := by decide
example : toolParseLax "a.com/x@master" = .ok ⟨"a.com/x", "master"⟩ := by decide
example : toolParse "a.com/x@" = .error .missingVersion := by decide
example : toolParse "a.com/x" = .error .invalidVersion := by decide
example : toolParseLax "a.com/x" = .ok ⟨"a.com/x", ""⟩ := by decide

/-! ### Lockfile (lockfile/lockfile.go)

The lockfile keeps a tool vector and a secondary index from binary names to
lists of positions into the vector.  The Go map is modelled as an
association list with unique keys; a Go map read that misses yields none.
Go slice indexing is partial: an out-of-range access panics, modelled by a
dedicated crash constructor in each result type. -/

structure Lockfile where
  tools : List Tool
  nameMap : List (String × List Nat)
deriving DecidableEq

def emptyLockfile : Lockfile := ⟨[], []⟩

/-- Lockfile.LenTools. -/
def lenTools (lf : Lockfile) : Nat := lf.tools.length

/-- The order in which the lockfile Iterator produces tools: the tool vector
in order, each exactly once. -/
def iterTools (lf : Lockfile) : List Tool := lf.tools

/-- Go map read: the bucket stored under a name, if present. -/
def lookupBucket : List (String × List Nat) → String → Option (List Nat)
  | [], _ => none
  | p :: m, k => if p.1 = k then some p.2 else lookupBucket m k

/-- Go map write: replaces the bucket under the key, or adds the key. -/
def setBucket : List (String × List Nat) → String → List Nat → List (String × List Nat)
  | [], k, b => [(k, b)]
  | p :: m, k, b => if p.1 = k then (k, b) :: m else p :: setBucket m k b

/-- Go map delete. -/
def removeBucket : List (String × List Nat) → String → List (String × List Nat)
  | [], _ => []
  | p :: m, k => if p.1 = k then removeBucket m k else p :: removeBucket m k

/-- Result of Lockfile.GetTool.  crash models a Go panic from an
out-of-range slice index; errIncorrectVersion carries the stored tool that
Go returns alongside the error. -/
inductive GetResult
  | ok (t : Tool)
  | errNotFound
  | errMultipleTools
  | errIncorrectVersion (t : Tool)
  | errParse
  | crash
deriving DecidableEq

/-- The bucket scan of the slow path of GetTool: first entry whose tool has
the requested import path; a version mismatch returns the stored tool with
errIncorrectVersion. -/
def scanBucket (tools : List Tool) (ip ver : String) : List Nat → GetResult
  | [] => .errNotFound
  | ti :: rest =>
    match tools.get? ti with
    | none => .crash
    | some t =>
      if t.importPath ≠ ip then scanBucket tools ip ver rest
      else if ver ≠ "" ∧ ver ≠ t.version then .errIncorrectVersion t
      else .ok t

/-- Lockfile.GetTool: fast path on an exact name-index hit (ambiguous when
the bucket has more than one entry), otherwise a slash-free name is not
found, otherwise the name is lax-parsed as an import path and the bucket of
its last segment is scanned. -/
def getTool (lf : Lockfile) (name : String) : GetResult :=
  match lookupBucket lf.nameMap name with
  | some bucket =>
    if 1 < bucket.length then .errMultipleTools
    else
      match bucket with
      | [] => .crash
      | i :: _ =>
        match lf.tools.get? i with
        | none => .crash
        | some t => .ok t
  | none =>
    if pathBase name = name then .errNotFound
    else
      match parseTool name false with
      | .error _ => .errParse
      | .ok tl =>
        match lookupBucket lf.nameMap (pathBase tl.importPath) with
        | none => .errNotFound
        | some bucket => scanBucket lf.tools tl.importPath tl.version bucket

/-- Result of Lockfile.PutTool.  The error constructor carries the lockfile
state after the failed call, which Go leaves unchanged. -/
inductive PutResult
  | crash
  | errInvalidVersion (lf : Lockfile)
  | ok (lf : Lockfile)
deriving DecidableEq

/-- The duplicate scan of PutTool over a name bucket: the first position
whose tool has the given import path.  some none means no duplicate; none
models a panic on a stale out-of-range position. -/
def findInBucket (tools : List Tool) (ip : String) : List Nat → Option (Option Nat)
  | [] => some none
  | ti :: rest =>
    match tools.get? ti with
    | none => none
    | some t =>
      if t.importPath = ip then some (some ti) else findInBucket tools ip rest

/-- Lockfile.PutTool: rejects tools without a canonical semantic version,
replaces an existing entry with the same import path, and otherwise appends
the tool and records its position in the name bucket. -/
def putTool (lf : Lockfile) (t : Tool) : PutResult :=
  if ¬t.hasSemver then .errInvalidVersion lf
  else
    match findInBucket lf.tools t.importPath ((lookupBucket lf.nameMap t.name).getD []) with
    | none => .crash
    | some (some ti) => .ok { lf with tools := lf.tools.set ti t }
    | some none =>
      .ok { tools := lf.tools ++ [t],
            nameMap := setBucket lf.nameMap t.name
              (((lookupBucket lf.nameMap t.name).getD []) ++ [lf.tools.length]) }

/-- The deletion scan of DeleteTool: the first bucket position whose tool
matches the import path and, when the requested version is nonempty, the
version.  Returns the bucket index and the vector position. -/
def findDelete (t : Tool) (tools : List Tool) : List Nat → Nat → Option (Option (Nat × Nat))
  | [], _ => some none
  | ti :: rest, bi =>
    match tools.get? ti with
    | none => none
    | some tl =>
      if t.importPath = tl.importPath ∧ (t.version = "" ∨ t.version = tl.version) then
        some (some (bi, ti))
      else findDelete t tools rest (bi + 1)

/-- Lockfile.DeleteTool: swap-remove on the tool vector (the last tool
overwrites the deleted position) and on the name bucket; an empty bucket is
removed from the index.  none models a Go panic. -/
def deleteTool (lf : Lockfile) (t : Tool) : Option Lockfile :=
  let toolName := t.name
  match lookupBucket lf.nameMap toolName with
  | none => some lf
  | some bucket =>
    match findDelete t lf.tools bucket 0 with
    | none => none
    | some none => some lf
    | some (some (bi, ti)) =>
      match lf.tools.getLast? with
      | none => none
      | some lastT =>
        let tools2 := (lf.tools.set ti lastT).dropLast
        match bucket.getLast? with
        | none => none
        | some lastB =>
          let bucket2 := (bucket.set bi lastB).dropLast
          if bucket2 = [] then
            some { tools := tools2, nameMap := removeBucket lf.nameMap toolName }
          else
            some { tools := tools2, nameMap := setBucket lf.nameMap toolName bucket2 }

/-- Well-formedness of a lockfile: index keys are unique; every bucket is
nonempty, duplicate free, in bounds, and holds only positions of tools with
the bucket name; every tool position appears in the bucket of its name;
and import paths are unique across the vector. -/
def WF (lf : Lockfile) : Prop :=
  (lf.nameMap.map (fun p => p.1)).Nodup ∧
  (∀ p ∈ lf.nameMap, p.2 ≠ [] ∧ p.2.Nodup ∧
    ∀ i ∈ p.2, i < lf.tools.length ∧ (lf.tools.getD i default).name = p.1) ∧
  (∀ q ∈ lf.tools.enum, q.1 ∈ (lookupBucket lf.nameMap q.2.name).getD []) ∧
  (lf.tools.map (fun t => t.importPath)).Nodup

instance (lf : Lockfile) : Decidable (WF lf) := by
  unfold WF; infer_instance

example :
    putTool emptyLockfile ⟨"a.com/a", "v1.0.0"⟩ =
      .ok ⟨[⟨"a.com/a", "v1.0.0"⟩], [("a", [0])]⟩ := by decide

example : WF emptyLockfile := by decide
example : WF ⟨[⟨"a.com/a", "v1.0.0"⟩], [("a", [0])]⟩ := by decide

/-! ### Lockfile index lemmas -/

theorem lookupBucket_mem {m : List (String × List Nat)} {k : String} {b : List Nat}
    (h : lookupBucket m k = some b) : (k, b) ∈ m := by
  induction m with
  | nil => simp [lookupBucket] at h
  | cons p m' ih =>
    unfold lookupBucket at h
    by_cases hp : p.1 = k
    · rw [if_pos hp] at h
      have hb : p.2 = b := by injection h
      have : p = (k, b) := by
        cases p; simp only at hp hb; rw [hp, hb]
      exact this ▸ List.mem_cons_self _ _
    · rw [if_neg hp] at h
      exact List.mem_cons_of_mem _ (ih h)

theorem wf_bucket_bounds {lf : Lockfile} (hwf : WF lf) {k : String} {b : List Nat}
    (h : lookupBucket lf.nameMap k = some b) : ∀ i ∈ b, i < lf.tools.length :=
  fun i hi => ((hwf.2.1 _ (lookupBucket_mem h)).2.2 i hi).1

theorem findInBucket_isSome {tools : List Tool} {ip : String} {b : List Nat}
    (h : ∀ i ∈ b, i < tools.length) : findInBucket tools ip b ≠ none := by
  induction b with
  | nil => simp [findInBucket]
  | cons ti rest ih =>
    have hlt : ti < tools.length := h ti (List.mem_cons_self _ _)
    unfold findInBucket
    cases hg : tools.get? ti with
    | none => exact absurd (List.get?_eq_none.mp hg) (by omega)
    | some t =>
      by_cases hip : t.importPath = ip
      · simp [hip]
      · simpa [hip] using ih (fun i hi => h i (List.mem_cons_of_mem _ hi))

/-- C1: the claimed index invariant fails on the code.  From the empty
lockfile, inserting a.com/a and b.com/b and then deleting a.com/a leaves
the tool vector as just b.com/b while the name index still maps b to
position 1: DeleteTool moves the last tool into the vacated slot but never
updates that tool's recorded position, so the state is not well formed and
a subsequent GetTool by the short name b indexes out of bounds (a Go
panic) instead of returning the tool named b. -/
theorem deleteTool_stale_index_bug :
    putTool emptyLockfile ⟨"a.com/a", "v1.0.0"⟩ =
      .ok ⟨[⟨"a.com/a", "v1.0.0"⟩], [("a", [0])]⟩ ∧
    putTool ⟨[⟨"a.com/a", "v1.0.0"⟩], [("a", [0])]⟩ ⟨"b.com/b", "v1.0.0"⟩ =
      .ok ⟨[⟨"a.com/a", "v1.0.0"⟩, ⟨"b.com/b", "v1.0.0"⟩], [("a", [0]), ("b", [1])]⟩ ∧
    deleteTool ⟨[⟨"a.com/a", "v1.0.0"⟩, ⟨"b.com/b", "v1.0.0"⟩], [("a", [0]), ("b", [1])]⟩
        ⟨"a.com/a", "v1.0.0"⟩ =
      some ⟨[⟨"b.com/b", "v1.0.0"⟩], [("b", [1])]⟩ ∧
    lookupBucket [("b", [1])] "b" = some [1] ∧
    ¬ WF ⟨[⟨"b.com/b", "v1.0.0"⟩], [("b", [1])]⟩ ∧
    getTool ⟨[⟨"b.com/b", "v1.0.0"⟩], [("b", [1])]⟩ "b" = .crash := by
  decide

/-- C4: PutTool with a tool whose version is not a canonical semantic
version (empty, shorthand, or query) fails with InvalidVersion and returns
with the lockfile state unchanged, so LenTools, every GetTool result and
the iteration multiset are unchanged. -/
theorem putTool_invalid_version_unchanged (lf : Lockfile) (t : Tool)
    (h : t.hasSemver = false) :
    putTool lf t = .errInvalidVersion lf := by
  unfold putTool
  simp [h]

/-- C4 witness: a shorthand version is rejected on the empty lockfile and
the state is returned unchanged. -/
theorem putTool_invalid_version_unchanged_witness :
    Tool.hasSemver ⟨"github.com/cszatmary/go-fish", "v1.2"⟩ = false ∧
    putTool emptyLockfile ⟨"github.com/cszatmary/go-fish", "v1.2"⟩ =
      .errInvalidVersion emptyLockfile :=
  ⟨by decide,
   putTool_invalid_version_unchanged emptyLockfile ⟨"github.com/cszatmary/go-fish", "v1.2"⟩
     (by decide)⟩

/-- C10: on a well-formed lockfile PutTool fails exactly when the version
is not a canonical semantic version, and it performs no validation of
the import path: foo/bar violates the module-path grammar (no dot in its first
segment) yet a tool with that import path and a canonical version is
accepted and stored. -/
theorem putTool_validates_only_version :
    (∀ (lf : Lockfile) (t : Tool), WF lf →
      if t.hasSemver then ∃ lf', putTool lf t = .ok lf'
      else putTool lf t = .errInvalidVersion lf) ∧
    checkPath "foo/bar" = false ∧
    putTool emptyLockfile ⟨"foo/bar", "v1.0.0"⟩ =
      .ok ⟨[⟨"foo/bar", "v1.0.0"⟩], [("bar", [0])]⟩ := by
  refine ⟨?_, by decide, by decide⟩
  intro lf t hwf
  by_cases hs : t.hasSemver
  · simp only [hs, if_true]
    unfold putTool
    simp only [hs, not_true_eq_false, if_false]
    have hb : ∀ i ∈ (lookupBucket lf.nameMap t.name).getD [], i < lf.tools.length := by
      cases hl : lookupBucket lf.nameMap t.name with
      | none => simp
      | some b => simpa using wf_bucket_bounds hwf hl
    cases hf : findInBucket lf.tools t.importPath ((lookupBucket lf.nameMap t.name).getD []) with
    | none => exact absurd hf (findInBucket_isSome hb)
    | some r =>
      cases r with
      | none => exact ⟨_, rfl⟩
      | some ti => exact ⟨_, rfl⟩
  · have hs' : t.hasSemver = false := by simpa using hs
    simp only [hs', if_false, Bool.false_eq_true]
    exact putTool_invalid_version_unchanged lf t hs'

/-- C10 witness: instantiated on a concrete well-formed lockfile and a
concrete tool with a canonical version. -/
theorem putTool_validates_only_version_witness :
    WF ⟨[⟨"a.com/a", "v1.0.0"⟩], [("a", [0])]⟩ ∧
    (if Tool.hasSemver ⟨"b.com/b", "v2.0.0"⟩ then
      ∃ lf', putTool ⟨[⟨"a.com/a", "v1.0.0"⟩], [("a", [0])]⟩ ⟨"b.com/b", "v2.0.0"⟩ = .ok lf'
     else putTool ⟨[⟨"a.com/a", "v1.0.0"⟩], [("a", [0])]⟩ ⟨"b.com/b", "v2.0.0"⟩ =
      .errInvalidVersion ⟨[⟨"a.com/a", "v1.0.0"⟩], [("a", [0])]⟩) :=
  ⟨by decide,
   putTool_validates_only_version.1 ⟨[⟨"a.com/a", "v1.0.0"⟩], [("a", [0])]⟩
     ⟨"b.com/b", "v2.0.0"⟩ (by decide)⟩

/-! ### Parsing lemmas (claim C3) -/

theorem strEta (s : String) : (⟨s.data⟩ : String) = s := by cases s; rfl

theorem strData_append (a b : String) : (a ++ b).data = a.data ++ b.data := by
  cases a; cases b; rfl

theorem strData_nil_iff (s : String) : s.data = [] ↔ s = "" := by
  cases s with
  | mk l =>
    constructor
    · intro h; simp only at h; rw [h]
    · intro h; rw [h]

theorem breakAt_not_mem {c : Char} {l : List Char} (h : c ∉ l) : breakAt c l = none := by
  induction l with
  | nil => rfl
  | cons x xs ih =>
    have hx : ¬x = c := fun he => h (he ▸ List.mem_cons_self _ _)
    unfold breakAt
    rw [if_neg hx, ih (fun hm => h (List.mem_cons_of_mem _ hm))]
    rfl

theorem breakAt_split {c : Char} {l r : List Char} (h : c ∉ l) :
    breakAt c (l ++ c :: r) = some (l, r) := by
  induction l with
  | nil => simp [breakAt]
  | cons x xs ih =>
    have hx : ¬x = c := fun he => h (he ▸ List.mem_cons_self _ _)
    have ih' := ih (fun hm => h (List.mem_cons_of_mem _ hm))
    simp only [List.cons_append]
    unfold breakAt
    rw [if_neg hx, ih']
    rfl

def exceptIsOk {ε α : Type} : Except ε α → Bool
  | .ok _ => true
  | .error _ => false

/-- C3 amended: strict Parse requires a version: a name with no at-sign is
rejected (the empty version is not a semantic version), a bare trailing
at-sign is rejected, and an at-sign must be followed by a semantic version,
which is canonicalised from shorthand; lax ParseLax accepts any nonempty
suffix after the at-sign verbatim, never canonicalising, and also accepts a
name with no version at all. -/
theorem parse_two_mode_contract :
    (∀ s : String, '@' ∉ s.data → exceptIsOk (toolParse s) = false) ∧
    (∀ p v : String, '@' ∉ p.data → v ≠ "" →
      toolParse (p ++ "@" ++ v) =
        if ¬checkPath p then .error .invalidPath
        else if ¬svIsValid v then .error .invalidVersion
        else .ok ⟨p, svCanonical v⟩) ∧
    svCanonical "v1" = "v1.0.0" ∧ svCanonical "v1.2" = "v1.2.0" ∧
    (∀ p : String, '@' ∉ p.data →
      toolParse (p ++ "@") = .error .missingVersion ∧
      toolParseLax (p ++ "@") = .error .missingVersion) ∧
    (∀ p v : String, '@' ∉ p.data → v ≠ "" →
      toolParseLax (p ++ "@" ++ v) =
        if ¬checkPath p then .error .invalidPath else .ok ⟨p, v⟩) ∧
    (∀ s : String, '@' ∉ s.data →
      toolParseLax s = if ¬checkPath s then .error .invalidPath else .ok ⟨s, ""⟩) := by
  have hat : ("@" : String).data = ['@'] := rfl
  have hsplit : ∀ p v : String, '@' ∉ p.data →
      breakAt '@' (p ++ "@" ++ v).data = some (p.data, v.data) := by
    intro p v hp
    have hd : (p ++ "@" ++ v).data = p.data ++ '@' :: v.data := by
      rw [strData_append, strData_append, hat, List.append_assoc]
      rfl
    rw [hd]
    exact breakAt_split hp
  refine ⟨?_, ?_, by decide, by decide, ?_, ?_, ?_⟩
  · intro s hs
    have hv0 : svIsValid "" = false := rfl
    unfold toolParse parseTool
    rw [breakAt_not_mem hs]
    unfold parseToolRest
    by_cases hc : checkPath s
    · simp [hc, hv0, exceptIsOk]
    · simp [hc, exceptIsOk]
  · intro p v hp hv
    have hvd : v.data ≠ [] := fun h => hv ((strData_nil_iff v).mp h)
    unfold toolParse parseTool
    simp only [hsplit p v hp]
    rw [if_neg hvd]
    unfold parseToolRest
    rw [strEta, strEta]
    by_cases hc : checkPath p
    · simp [hc]
    · simp [hc]
  · intro p hp
    constructor
    · unfold toolParse parseTool
      simp [strData_append, hat, breakAt_split hp]
    · unfold toolParseLax parseTool
      simp [strData_append, hat, breakAt_split hp]
  · intro p v hp hv
    have hvd : v.data ≠ [] := fun h => hv ((strData_nil_iff v).mp h)
    unfold toolParseLax parseTool
    simp only [hsplit p v hp]
    rw [if_neg hvd]
    unfold parseToolRest
    rw [strEta, strEta]
    by_cases hc : checkPath p
    · simp [hc]
    · simp [hc]
  · intro s hs
    unfold toolParseLax parseTool
    rw [breakAt_not_mem hs]
    unfold parseToolRest
    by_cases hc : checkPath s
    · simp [hc]
    · simp [hc]

/-- C3 witness: the amended contract instantiated: a shorthand version after
the at-sign parses strictly and is canonicalised. -/
theorem parse_two_mode_contract_witness :
    '@' ∉ "example.com/x".data ∧ ("v1" : String) ≠ "" ∧
    toolParse ("example.com/x" ++ "@" ++ "v1") = .ok ⟨"example.com/x", "v1.0.0"⟩ :=
  ⟨by decide, by decide, by
    rw [parse_two_mode_contract.2.1 "example.com/x" "v1" (by decide) (by decide)]
    decide⟩

/-- C3 counterexample: the claim that strict Parse accepts a name with no
at-sign is false: a valid import path with no version is rejected by the
strict mode with an invalid-version error. -/
theorem parse_strict_rejects_missing_version :
    toolParse "example.com/foo" = .error .invalidVersion := by decide

/-! ### More lockfile index lemmas (claim C2) -/

theorem lookupBucket_eq_none {m : List (String × List Nat)} {k : String} :
    lookupBucket m k = none ↔ ∀ p ∈ m, p.1 ≠ k := by
  induction m with
  | nil => simp [lookupBucket]
  | cons p m' ih =>
    unfold lookupBucket
    by_cases hp : p.1 = k
    · simp [hp]
    · simp only [if_neg hp, ih]
      constructor
      · intro h q hq
        rcases List.mem_cons.mp hq with he | hm
        · rw [he]; exact hp
        · exact h q hm
      · intro h q hq
        exact h q (List.mem_cons_of_mem _ hq)

theorem lookup_setBucket_self (m : List (String × List Nat)) (k : String) (b : List Nat) :
    lookupBucket (setBucket m k b) k = some b := by
  induction m with
  | nil => simp [setBucket, lookupBucket]
  | cons p m' ih =>
    unfold setBucket
    by_cases hp : p.1 = k
    · rw [if_pos hp]
      simp [lookupBucket]
    · rw [if_neg hp]
      unfold lookupBucket
      rw [if_neg hp]
      exact ih

theorem lookup_setBucket_ne (m : List (String × List Nat)) {k k' : String}
    (b : List Nat) (h : k' ≠ k) :
    lookupBucket (setBucket m k b) k' = lookupBucket m k' := by
  induction m with
  | nil =>
    simp only [setBucket, lookupBucket]
    rw [if_neg (fun he => h he.symm)]
  | cons p m' ih =>
    unfold setBucket
    by_cases hp : p.1 = k
    · rw [if_pos hp]
      unfold lookupBucket
      rw [if_neg (show ¬(((k, b) : String × List Nat).1 = k') from fun he => h he.symm)]
      rw [if_neg (show ¬(p.1 = k') from fun he => h ((hp.symm.trans he).symm))]
    · rw [if_neg hp]
      unfold lookupBucket
      by_cases hp' : p.1 = k'
      · rw [if_pos hp', if_pos hp']
      · rw [if_neg hp', if_neg hp']
        exact ih

theorem findInBucket_found {tools : List Tool} {ip : String} {b : List Nat} {ti : Nat}
    (h : findInBucket tools ip b = some (some ti)) :
    ∃ l1 l2, b = l1 ++ ti :: l2 ∧
      (∃ u, tools.get? ti = some u ∧ u.importPath = ip) ∧
      ∀ tj ∈ l1, ∃ w, tools.get? tj = some w ∧ w.importPath ≠ ip := by
  induction b with
  | nil => simp [findInBucket] at h
  | cons x rest ih =>
    unfold findInBucket at h
    cases hg : tools.get? x with
    | none => simp only [hg] at h; exact absurd h (by simp)
    | some w =>
      simp only [hg] at h
      by_cases hw : w.importPath = ip
      · rw [if_pos hw] at h
        have hx : x = ti := by
          have h1 : some x = some ti := by injection h
          injection h1
        subst hx
        exact ⟨[], rest, rfl, ⟨w, hg, hw⟩, by simp⟩
      · rw [if_neg hw] at h
        obtain ⟨l1, l2, hb, hu, hl1⟩ := ih h
        refine ⟨x :: l1, l2, by simp [hb], hu, ?_⟩
        intro tj htj
        rcases List.mem_cons.mp htj with he | hm
        · rw [he]; exact ⟨w, hg, hw⟩
        · exact hl1 tj hm

theorem findInBucket_notfound {tools : List Tool} {ip : String} {b : List Nat}
    (h : findInBucket tools ip b = some none) :
    ∀ tj ∈ b, ∃ w, tools.get? tj = some w ∧ w.importPath ≠ ip := by
  induction b with
  | nil => simp
  | cons x rest ih =>
    unfold findInBucket at h
    cases hg : tools.get? x with
    | none => simp only [hg] at h; exact absurd h (by simp)
    | some w =>
      simp only [hg] at h
      by_cases hw : w.importPath = ip
      · rw [if_pos hw] at h; simp at h
      · rw [if_neg hw] at h
        intro tj htj
        rcases List.mem_cons.mp htj with he | hm
        · rw [he]; exact ⟨w, hg, hw⟩
        · exact ih h tj hm

theorem get?_set_self {α : Type} {l : List α} {i : Nat} {a : α} (h : i < l.length) :
    (l.set i a).get? i = some a := by
  induction l generalizing i with
  | nil => simp at h
  | cons x xs ih =>
    cases i with
    | zero => rfl
    | succ n => exact ih (by simpa using h)

theorem get?_set_ne {α : Type} {l : List α} {i j : Nat} {a : α} (h : j ≠ i) :
    (l.set i a).get? j = l.get? j := by
  induction l generalizing i j with
  | nil => rfl
  | cons x xs ih =>
    cases i with
    | zero =>
      cases j with
      | zero => exact absurd rfl h
      | succ m => rfl
    | succ n =>
      cases j with
      | zero => rfl
      | succ m => exact ih (fun he => h (by rw [he]))

theorem get?_concat_self {α : Type} (l : List α) (a : α) :
    (l ++ [a]).get? l.length = some a := by
  induction l with
  | nil => rfl
  | cons x xs ih => exact ih

theorem get?_append_left {α : Type} {l l2 : List α} {i : Nat} (h : i < l.length) :
    (l ++ l2).get? i = l.get? i := by
  induction l generalizing i with
  | nil => simp at h
  | cons x xs ih =>
    cases i with
    | zero => rfl
    | succ n => exact ih (by simpa using h)

theorem importPath_pos_inj {l : List Tool}
    (h : (l.map (fun t => t.importPath)).Nodup)
    {i j : Nat} {u w : Tool} (hi : l.get? i = some u) (hj : l.get? j = some w)
    (he : u.importPath = w.importPath) : i = j := by
  have hi' : (l.map (fun t => t.importPath)).get? i = some u.importPath := by
    rw [List.get?_map, hi]; rfl
  have hj' : (l.map (fun t => t.importPath)).get? j = some w.importPath := by
    rw [List.get?_map, hj]; rfl
  have hlt : i < (l.map (fun t => t.importPath)).length := by
    rcases List.get?_eq_some.mp hi' with ⟨hl, _⟩
    exact hl
  exact List.get?_inj hlt h (by rw [hi', hj', he])

theorem nodup_all_eq_singleton {b : List Nat} {x : Nat} (hn : b.Nodup)
    (hx : x ∈ b) (hall : ∀ y ∈ b, y = x) : b = [x] := by
  cases b with
  | nil => cases hx
  | cons a rest =>
    have ha : a = x := hall a (List.mem_cons_self _ _)
    subst ha
    cases rest with
    | nil => rfl
    | cons c r2 =>
      have hc : c = a := hall c (List.mem_cons_of_mem _ (List.mem_cons_self _ _))
      have hnotin : a ∉ c :: r2 := (List.nodup_cons.mp hn).1
      exact absurd (by rw [hc]; exact List.mem_cons_self _ _ : a ∈ c :: r2) hnotin

theorem getD_mem_of_lt {l : List Tool} {i : Nat} (h : i < l.length) :
    l.getD i default ∈ l ∧ l.get? i = some (l.getD i default) := by
  have hg : l.get? i = some (l.get ⟨i, h⟩) := List.get?_eq_get h
  have hd : l.getD i default = l.get ⟨i, h⟩ := by
    unfold List.getD
    rw [hg]; rfl
  exact ⟨hd ▸ List.get_mem l i h, by rw [hd]; exact hg⟩

/-- Under the index invariant, a lockfile has no bucket keyed by the
full import path of t when that path is not its own last segment and no stored
tool with the binary name equal to that path has a different import path. -/
theorem lookup_importPath_none {lf : Lockfile} {t : Tool} (hwf : WF lf)
    (hname : ∀ u ∈ lf.tools, u.name = t.importPath → u.importPath = t.importPath)
    (hne : t.name ≠ t.importPath) :
    lookupBucket lf.nameMap t.importPath = none := by
  cases hl : lookupBucket lf.nameMap t.importPath with
  | none => rfl
  | some b =>
    exfalso
    have hmem := lookupBucket_mem hl
    obtain ⟨hbne, hnd, hfa⟩ := hwf.2.1 _ hmem
    cases b with
    | nil => exact hbne rfl
    | cons i rest =>
      obtain ⟨hlt, hnm⟩ := hfa i (List.mem_cons_self _ _)
      obtain ⟨humem, hug⟩ := getD_mem_of_lt hlt
      have hip : (lf.tools.getD i default).importPath = t.importPath :=
        hname _ humem hnm
      apply hne
      calc t.name = pathBase t.importPath := rfl
        _ = pathBase (lf.tools.getD i default).importPath := by rw [hip]
        _ = (lf.tools.getD i default).name := rfl
        _ = t.importPath := hnm

theorem getTool_fast {lf' : Lockfile} {ip : String} {i : Nat} {t : Tool}
    (hl : lookupBucket lf'.nameMap ip = some [i]) (hg : lf'.tools.get? i = some t) :
    getTool lf' ip = .ok t := by
  unfold getTool
  simp only [hl, hg]
  rfl

theorem getTool_slow {lf' : Lockfile} {ip : String} {bucket : List Nat} {t : Tool}
    (h0 : lookupBucket lf'.nameMap ip = none)
    (h1 : pathBase ip ≠ ip)
    (h2 : parseTool ip false = .ok ⟨ip, ""⟩)
    (h3 : lookupBucket lf'.nameMap (pathBase ip) = some bucket)
    (h4 : scanBucket lf'.tools ip "" bucket = .ok t) :
    getTool lf' ip = .ok t := by
  unfold getTool
  simp only [h0, h2]
  rw [if_neg h1]
  simp only [h3]
  exact h4

theorem scanBucket_hits {tools' : List Tool} {ip : String} {t : Tool} {l1 l2 : List Nat}
    {ti : Nat}
    (h1 : ∀ tj ∈ l1, ∃ w, tools'.get? tj = some w ∧ w.importPath ≠ ip)
    (h2 : tools'.get? ti = some t) (h3 : t.importPath = ip) :
    scanBucket tools' ip "" (l1 ++ ti :: l2) = .ok t := by
  induction l1 with
  | nil =>
    simp only [List.nil_append]
    unfold scanBucket
    simp only [h2]
    rw [if_neg (by simp [h3])]
    simp
  | cons x rest ih =>
    obtain ⟨w, hw1, hw2⟩ := h1 x (List.mem_cons_self _ _)
    simp only [List.cons_append]
    unfold scanBucket
    simp only [hw1]
    rw [if_pos hw2]
    exact ih (fun tj htj => h1 tj (List.mem_cons_of_mem _ htj))

/-! ### Semantic version structure lemmas (claim C8) -/

theorem all_takeWhile (p : Char → Bool) (l : List Char) :
    ((l.takeWhile p).all p) = true := by
  induction l with
  | nil => rfl
  | cons c cs ih =>
    by_cases hc : p c
    · simp [List.takeWhile_cons, hc, ih]
    · simp [List.takeWhile_cons, hc]

theorem parseNum_props {l t r : List Char} (h : parseNum l = some (t, r)) :
    l = t ++ r ∧ t ≠ [] ∧ t.all isDigitCh = true := by
  cases l with
  | nil => simp [parseNum] at h
  | cons c cs =>
    simp only [parseNum] at h
    by_cases hd : isDigitCh c = true
    · rw [if_pos hd] at h
      by_cases hz : c = '0' ∧ ((c :: cs).takeWhile isDigitCh).length ≠ 1
      · rw [if_pos hz] at h
        exact absurd h (by simp)
      · rw [if_neg hz] at h
        have h2 : ((c :: cs).takeWhile isDigitCh, (c :: cs).dropWhile isDigitCh) = (t, r) :=
          Option.some.inj h
        have ht : (c :: cs).takeWhile isDigitCh = t := congrArg Prod.fst h2
        have hr : (c :: cs).dropWhile isDigitCh = r := congrArg Prod.snd h2
        subst ht
        subst hr
        refine ⟨(List.takeWhile_append_dropWhile isDigitCh (c :: cs)).symm, ?_, all_takeWhile _ _⟩
        simp [List.takeWhile_cons, hd]
    · rw [if_neg hd] at h
      exact absurd h (by simp)

theorem parsePre_props {l t r : List Char} (h : parsePre l = some (t, r)) :
    l = t ++ r ∧ ∃ b, t = '-' :: b := by
  cases l with
  | nil => simp [parsePre] at h
  | cons c cs =>
    simp only [parsePre] at h
    by_cases hc : c = '-'
    · rw [if_pos hc] at h
      subst hc
      split_ifs at h with h1
      · have h2 := Option.some.inj h
        have ht : '-' :: cs.takeWhile (fun x => x ≠ '+') = t := congrArg Prod.fst h2
        have hr : cs.dropWhile (fun x => x ≠ '+') = r := congrArg Prod.snd h2
        subst ht
        subst hr
        refine ⟨?_, ⟨_, rfl⟩⟩
        simp [List.takeWhile_append_dropWhile]
    · rw [if_neg hc] at h
      exact absurd h (by simp)

theorem parseBld_props {l t r : List Char} (h : parseBld l = some (t, r)) :
    l = t ++ r ∧ r = [] ∧ ∃ b, t = '+' :: b := by
  cases l with
  | nil => simp [parseBld] at h
  | cons c cs =>
    simp only [parseBld] at h
    by_cases hc : c = '+'
    · rw [if_pos hc] at h
      subst hc
      split_ifs at h with h1
      · have h2 := Option.some.inj h
        have ht : '+' :: cs = t := congrArg Prod.fst h2
        have hr : ([] : List Char) = r := congrArg Prod.snd h2
        subst ht
        subst hr
        exact ⟨by simp, rfl, ⟨_, rfl⟩⟩
    · rw [if_neg hc] at h
      exact absurd h (by simp)

theorem headIs_decomp {c : Char} {l : List Char} (h : headIs c l = true) :
    l = c :: l.tail := by
  cases l with
  | nil => simp [headIs] at h
  | cons x xs =>
    have hx : x = c := by simpa [headIs] using h
    rw [hx]
    rfl

theorem svParse_shape {s : String} {p : SemParsed} (h : svParse s = some p) :
    (p.short ≠ [] ∧ p.pre = [] ∧ p.build = []) ∨
    (p.short = [] ∧
     s.data = 'v' :: (p.major ++ '.' :: (p.minor ++ '.' :: (p.patch ++ (p.pre ++ p.build)))) ∧
     p.major.all isDigitCh = true ∧ p.minor.all isDigitCh = true ∧
     p.patch.all isDigitCh = true ∧
     (p.pre = [] ∨ ∃ b, p.pre = '-' :: b) ∧
     (p.build = [] ∨ ∃ b, p.build = '+' :: b)) := by
  unfold svParse at h
  by_cases hv : headIs 'v' s.data = true
  · rw [if_neg (by simp [hv])] at h
    cases h1 : parseNum s.data.tail with
    | none => simp only [h1] at h; exact absurd h (by simp)
    | some pr1 =>
      obtain ⟨maj, r1⟩ := pr1
      simp only [h1] at h
      obtain ⟨hrest, hmne, hmd⟩ := parseNum_props h1
      by_cases hr1 : r1 = []
      · rw [if_pos hr1] at h
        have hp := Option.some.inj h
        left
        rw [← hp]
        exact ⟨by simp, rfl, rfl⟩
      · rw [if_neg hr1] at h
        by_cases hd1 : headIs '.' r1 = true
        · rw [if_neg (by simp [hd1])] at h
          cases h2 : parseNum r1.tail with
          | none => simp only [h2] at h; exact absurd h (by simp)
          | some pr2 =>
            obtain ⟨minr, r3⟩ := pr2
            simp only [h2] at h
            obtain ⟨hr2, hmine, hmind⟩ := parseNum_props h2
            by_cases hr3 : r3 = []
            · rw [if_pos hr3] at h
              have hp := Option.some.inj h
              left
              rw [← hp]
              exact ⟨by simp, rfl, rfl⟩
            · rw [if_neg hr3] at h
              by_cases hd2 : headIs '.' r3 = true
              · rw [if_neg (by simp [hd2])] at h
                cases h3 : parseNum r3.tail with
                | none => simp only [h3] at h; exact absurd h (by simp)
                | some pr3 =>
                  obtain ⟨pat, r5⟩ := pr3
                  simp only [h3] at h
                  obtain ⟨hr4, hpatne, hpatd⟩ := parseNum_props h3
                  have hpre : ∃ pre r6,
                      (if headIs '-' r5 then parsePre r5 else some ([], r5)) =
                        some (pre, r6) ∧
                      r5 = pre ++ r6 ∧ (pre = [] ∨ ∃ b, pre = '-' :: b) := by
                    by_cases hh : headIs '-' r5 = true
                    · rw [if_pos hh]
                      cases hpp : parsePre r5 with
                      | none =>
                        rw [if_pos hh, hpp] at h
                        simp at h
                      | some pr =>
                        obtain ⟨pre, r6⟩ := pr
                        obtain ⟨ha, hb⟩ := parsePre_props hpp
                        exact ⟨pre, r6, rfl, ha, Or.inr hb⟩
                    · rw [if_neg hh]
                      exact ⟨[], r5, rfl, rfl, Or.inl rfl⟩
                  obtain ⟨pre, r6, hps, hr5, hpshape⟩ := hpre
                  simp only [hps] at h
                  have hbld : ∃ bld r7,
                      (if headIs '+' r6 then parseBld r6 else some ([], r6)) =
                        some (bld, r7) ∧
                      r6 = bld ++ r7 ∧ (bld = [] ∨ ∃ b, bld = '+' :: b) := by
                    by_cases hh : headIs '+' r6 = true
                    · rw [if_pos hh]
                      cases hbb : parseBld r6 with
                      | none =>
                        rw [if_pos hh, hbb] at h
                        simp at h
                      | some pr =>
                        obtain ⟨bld, r7⟩ := pr
                        obtain ⟨ha, _, hb⟩ := parseBld_props hbb
                        exact ⟨bld, r7, rfl, ha, Or.inr hb⟩
                    · rw [if_neg hh]
                      exact ⟨[], r6, rfl, rfl, Or.inl rfl⟩
                  obtain ⟨bld, r7, hbs, hr6, hbshape⟩ := hbld
                  simp only [hbs] at h
                  by_cases hr7 : r7 = []
                  · rw [if_pos hr7] at h
                    have hp := Option.some.inj h
                    right
                    rw [← hp]
                    refine ⟨rfl, ?_, hmd, hmind, hpatd, hpshape, hbshape⟩
                    subst hr7
                    rw [List.append_nil] at hr6
                    rw [headIs_decomp hv, hrest, headIs_decomp hd1, hr2,
                      headIs_decomp hd2, hr4, hr5, hr6]
                  · rw [if_neg hr7] at h
                    exact absurd h (by simp)
              · rw [if_pos hd2] at h
                exact absurd h (by simp)
        · rw [if_pos hd1] at h
          exact absurd h (by simp)
  · rw [if_pos hv] at h
    exact absurd h (by simp)

theorem char_contains_iff {c : Char} {l : List Char} : l.contains c = true ↔ c ∈ l := by
  induction l with
  | nil => simp [List.contains, List.elem]
  | cons x xs ih =>
    simp only [List.contains, List.elem] at *
    by_cases hx : c == x
    · simp only [hx]
      have : c = x := eq_of_beq hx
      simp [this]
    · have hx' : (c == x) = false := by
        cases hcx : c == x
        · rfl
        · exact absurd hcx (by simpa using hx)
      simp only [hx']
      rw [ih]
      constructor
      · exact fun hm => List.mem_cons_of_mem _ hm
      · intro hm
        rcases List.mem_cons.mp hm with he | hm2
        · exfalso
          apply hx
          rw [he]
          exact beq_self_eq_true x
        · exact hm2

theorem canonical_self_shape {v : String} {p : SemParsed} (hp : svParse v = some p)
    (hc : svCanonical v = v) : p.short = [] ∧ p.build = [] := by
  have hshape := svParse_shape hp
  unfold svCanonical at hc
  simp only [hp] at hc
  by_cases hb : p.build = []
  · refine ⟨?_, hb⟩
    rw [if_neg (by simp [hb])] at hc
    by_cases hs : p.short = []
    · exact hs
    · rw [if_pos hs] at hc
      exfalso
      have hlen := congrArg (fun x => x.data.length) hc
      simp only [strData_append] at hlen
      have hlen2 : v.data.length + p.short.length = v.data.length := by
        simpa using hlen
      exact hs (List.length_eq_zero.mp (by omega))
  · exfalso
    rw [if_pos hb] at hc
    have hlen := congrArg (fun x => x.data.length) hc
    simp only [List.length_take] at hlen
    rcases hshape with ⟨_, _, hb1⟩ | ⟨_, hdata, _, _, _, _, hbsh⟩
    · exact hb hb1
    · have hnz : 1 ≤ v.data.length := by rw [hdata]; simp
      have hbl : 1 ≤ p.build.length := by
        rcases hbsh with hbe | ⟨b, hbe⟩
        · exact absurd hbe hb
        · rw [hbe]; simp
      have hsub : v.data.length - p.build.length ≤ v.data.length := Nat.sub_le _ _
      have hlen2 : min (v.data.length - p.build.length) v.data.length = v.data.length := by
        simpa using hlen
      rw [min_eq_left hsub] at hlen2
      omega

theorem prerelease_empty_iff {v : String} (hv : svIsValid v = true)
    (hc : svCanonical v = v) :
    svPrerelease v = "" ↔ v.data.contains '-' = false := by
  unfold svIsValid at hv
  obtain ⟨p, hp⟩ := Option.isSome_iff_exists.mp hv
  obtain ⟨hshort, hbuild⟩ := canonical_self_shape hp hc
  have hshape := svParse_shape hp
  rcases hshape with ⟨hne, _, _⟩ | ⟨_, hdata, hmd, hmind, hpatd, hpshape, _⟩
  · exact absurd hshort hne
  · rw [hbuild, List.append_nil] at hdata
    unfold svPrerelease
    simp only [hp]
    have hdig : ∀ l : List Char, l.all isDigitCh = true → '-' ∉ l := by
      intro l hl hm
      exact absurd (List.all_eq_true.mp hl _ hm) (by decide)
    constructor
    · intro hpe
      have hpre0 : p.pre = [] := by
        have h2 := congrArg String.data hpe
        simpa using h2
      rw [← Bool.not_eq_true]
      intro hcontains
      have hmem := char_contains_iff.mp hcontains
      rw [hdata, hpre0, List.append_nil] at hmem
      rcases List.mem_cons.mp hmem with he | hmem2
      · exact absurd he (by decide)
      · rcases List.mem_append.mp hmem2 with hmj | hrest
        · exact hdig _ hmd hmj
        · rcases List.mem_cons.mp hrest with he | hrest2
          · exact absurd he (by decide)
          · rcases List.mem_append.mp hrest2 with hmn | hrest3
            · exact hdig _ hmind hmn
            · rcases List.mem_cons.mp hrest3 with he | hpt
              · exact absurd he (by decide)
              · exact hdig _ hpatd hpt
    · intro hcf
      by_cases hpre0 : p.pre = []
      · rw [hpre0]
      · exfalso
        rcases hpshape with he | ⟨b, hpe⟩
        · exact hpre0 he
        · have hmem : '-' ∈ v.data := by
            rw [hdata, hpe]
            simp
          have := char_contains_iff.mpr hmem
          rw [hcf] at this
          exact absurd this (by simp)

/-- C2 amended: on a well-formed lockfile, PutTool of a tool with a
canonical semantic version succeeds and a following GetTool of its import
path returns exactly that tool, provided the import path lax-parses to
itself with no version (a valid at-sign-free module path) and no stored
tool has a binary name equal to the import path of a different tool: the
short-name fast path of GetTool would otherwise report an ambiguity. -/
theorem putTool_getTool_roundtrip (lf : Lockfile) (t : Tool)
    (hwf : WF lf) (hsem : t.hasSemver = true)
    (hparse : parseTool t.importPath false = .ok ⟨t.importPath, ""⟩)
    (hname : ∀ u ∈ lf.tools, u.name = t.importPath → u.importPath = t.importPath) :
    ∃ lf', putTool lf t = .ok lf' ∧ getTool lf' t.importPath = .ok t := by
  have hput : putTool lf t =
      match findInBucket lf.tools t.importPath ((lookupBucket lf.nameMap t.name).getD []) with
      | none => .crash
      | some (some ti) => .ok ⟨lf.tools.set ti t, lf.nameMap⟩
      | some none =>
        .ok ⟨lf.tools ++ [t],
          setBucket lf.nameMap t.name
            (((lookupBucket lf.nameMap t.name).getD []) ++ [lf.tools.length])⟩ := by
    unfold putTool
    rw [if_neg (by simp [hsem])]
  cases hlb : lookupBucket lf.nameMap t.name with
  | none =>
    have hput' : putTool lf t =
        .ok ⟨lf.tools ++ [t], setBucket lf.nameMap t.name [lf.tools.length]⟩ := by
      rw [hput, hlb]
      rfl
    refine ⟨_, hput', ?_⟩
    by_cases hni : t.name = t.importPath
    · apply @getTool_fast _ _ lf.tools.length _
      · show lookupBucket (setBucket lf.nameMap t.name [lf.tools.length]) t.importPath =
          some [lf.tools.length]
        rw [← hni]
        exact lookup_setBucket_self _ _ _
      · exact get?_concat_self _ _
    · apply @getTool_slow _ _ [lf.tools.length] _
      · show lookupBucket (setBucket lf.nameMap t.name [lf.tools.length]) t.importPath = none
        rw [lookup_setBucket_ne _ _ (fun he => hni he.symm)]
        exact lookup_importPath_none hwf hname hni
      · exact hni
      · exact hparse
      · exact lookup_setBucket_self _ _ _
      · have hs := @scanBucket_hits (lf.tools ++ [t]) t.importPath _ [] []
          lf.tools.length (by simp) (get?_concat_self _ _) rfl
        simpa using hs
  | some bucket =>
    have hmem := lookupBucket_mem hlb
    obtain ⟨hbne, hbnd, hfa⟩ := hwf.2.1 _ hmem
    have hbounds : ∀ i ∈ bucket, i < lf.tools.length := fun i hi => (hfa i hi).1
    cases hfind : findInBucket lf.tools t.importPath bucket with
    | none => exact absurd hfind (findInBucket_isSome hbounds)
    | some r =>
      cases r with
      | some ti =>
        have hput' : putTool lf t = .ok ⟨lf.tools.set ti t, lf.nameMap⟩ := by
          rw [hput, hlb]
          simp only [Option.getD_some, hfind]
        obtain ⟨l1, l2, hbdec, ⟨u, hug, huip⟩, hl1⟩ := findInBucket_found hfind
        have htimem : ti ∈ bucket := by
          rw [hbdec]; exact List.mem_append_right _ (List.mem_cons_self _ _)
        have htilt : ti < lf.tools.length := hbounds ti htimem
        refine ⟨_, hput', ?_⟩
        by_cases hni : t.name = t.importPath
        · have hsingle : bucket = [ti] := by
            apply nodup_all_eq_singleton hbnd htimem
            intro y hy
            obtain ⟨hylt, hyname⟩ := hfa y hy
            obtain ⟨hymem, hyg⟩ := getD_mem_of_lt hylt
            have hyip := hname _ hymem (hyname.trans hni)
            exact importPath_pos_inj hwf.2.2.2 hyg hug (hyip.trans huip.symm)
          apply @getTool_fast _ _ ti _
          · show lookupBucket lf.nameMap t.importPath = some [ti]
            rw [← hni, hlb, hsingle]
          · exact get?_set_self htilt
        · apply @getTool_slow _ _ bucket _
          · show lookupBucket lf.nameMap t.importPath = none
            exact lookup_importPath_none hwf hname hni
          · exact hni
          · exact hparse
          · exact hlb
          · have htj_ne : ∀ tj ∈ l1, tj ≠ ti := by
              intro tj htj he
              have hnd' := hbnd
              rw [hbdec] at hnd'
              rcases List.nodup_append.mp hnd' with ⟨_, _, hdisj⟩
              exact hdisj (he ▸ htj) (List.mem_cons_self _ _)
            show scanBucket (lf.tools.set ti t) t.importPath "" bucket = .ok t
            rw [hbdec]
            apply scanBucket_hits
            · intro tj htj
              obtain ⟨w, hwg, hwip⟩ := hl1 tj htj
              refine ⟨w, ?_, hwip⟩
              rw [get?_set_ne (htj_ne tj htj)]
              exact hwg
            · exact get?_set_self htilt
            · rfl
      | none =>
        have hput' : putTool lf t =
            .ok ⟨lf.tools ++ [t],
              setBucket lf.nameMap t.name (bucket ++ [lf.tools.length])⟩ := by
          rw [hput, hlb]
          simp only [Option.getD_some, hfind]
        have hnotf := findInBucket_notfound hfind
        refine ⟨_, hput', ?_⟩
        by_cases hni : t.name = t.importPath
        · have hbnil : bucket = [] := by
            cases hbc : bucket with
            | nil => rfl
            | cons y rest =>
              exfalso
              have hymem0 : y ∈ bucket := by rw [hbc]; exact List.mem_cons_self _ _
              obtain ⟨hylt, hyname⟩ := hfa y hymem0
              obtain ⟨hymem, hyg⟩ := getD_mem_of_lt hylt
              have hyip := hname _ hymem (hyname.trans hni)
              obtain ⟨w, hwg, hwip⟩ := hnotf y hymem0
              rw [hyg] at hwg
              have hww : (lf.tools.getD y default) = w := by injection hwg
              exact hwip (by rw [← hww]; exact hyip)
          apply @getTool_fast _ _ lf.tools.length _
          · show lookupBucket (setBucket lf.nameMap t.name (bucket ++ [lf.tools.length]))
              t.importPath = some [lf.tools.length]
            rw [← hni, hbnil]
            simpa using lookup_setBucket_self lf.nameMap t.name [lf.tools.length]
          · exact get?_concat_self _ _
        · apply @getTool_slow _ _ (bucket ++ [lf.tools.length]) _
          · rw [lookup_setBucket_ne _ _ (fun he => hni he.symm)]
            exact lookup_importPath_none hwf hname hni
          · exact hni
          · exact hparse
          · exact lookup_setBucket_self _ _ _
          · apply @scanBucket_hits _ _ _ bucket [] _
            · intro tj htj
              obtain ⟨w, hwg, hwip⟩ := hnotf tj htj
              refine ⟨w, ?_, hwip⟩
              rw [get?_append_left (hbounds tj htj)]
              exact hwg
            · exact get?_concat_self _ _
            · rfl

/-- C2 witness: the amended statement instantiated on a concrete
well-formed lockfile with one unrelated tool. -/
theorem putTool_getTool_roundtrip_witness :
    ∃ lf', putTool ⟨[⟨"a.com/go-fish", "v0.1.0"⟩], [("go-fish", [0])]⟩
        ⟨"b.com/cmd/tool", "v1.0.0"⟩ = .ok lf' ∧
      getTool lf' "b.com/cmd/tool" = .ok ⟨"b.com/cmd/tool", "v1.0.0"⟩ :=
  putTool_getTool_roundtrip ⟨[⟨"a.com/go-fish", "v0.1.0"⟩], [("go-fish", [0])]⟩
    ⟨"b.com/cmd/tool", "v1.0.0"⟩ (by decide) (by decide) (by decide) (by decide)

/-! ### Lockfile persistence (claim C5)

WriteTo marshals a JSON object mapping each stored import path to its
version; Parse decodes such an object and strict-parses every entry as
path at version, collecting errors.  Modelled from the spec: the
encoding/json byte round-trip is the identity on this object, so
persistence is embedded at the level of the schema map; the entry-list
parameter of parseLockfile stands for the arbitrary enumeration order of
the decoded JSON object.  -/

/-- Go map write for the serialisation schema. -/
def insertSchema : List (String × String) → String → String → List (String × String)
  | [], k, v => [(k, v)]
  | p :: m, k, v => if p.1 = k then (k, v) :: m else p :: insertSchema m k v

/-- Lockfile.WriteTo: the schema object built from the tool vector;
duplicate import paths have last-writer-wins semantics in the map. -/
def writeSchema (lf : Lockfile) : List (String × String) :=
  lf.tools.foldl (fun m t => insertSchema m t.importPath t.version) []

/-- One entry step of lockfile.Parse: strict-parse the entry, collect the
error or append the tool and record its position in the name index. -/
def parseStep (acc : List ParseErr × Lockfile) (e : String × String) :
    List ParseErr × Lockfile :=
  match parseTool (e.1 ++ "@" ++ e.2) true with
  | .error err => (acc.1 ++ [err], acc.2)
  | .ok t =>
    (acc.1,
      ⟨acc.2.tools ++ [t],
        setBucket acc.2.nameMap t.name
          (((lookupBucket acc.2.nameMap t.name).getD []) ++ [acc.2.tools.length])⟩)

/-- lockfile.Parse over an enumeration of the decoded JSON object: parse
all entries, return the collected error list when nonempty, else the
lockfile. -/
def parseLockfile (entries : List (String × String)) : Except (List ParseErr) Lockfile :=
  if (entries.foldl parseStep ([], emptyLockfile)).1 = [] then
    .ok (entries.foldl parseStep ([], emptyLockfile)).2
  else .error (entries.foldl parseStep ([], emptyLockfile)).1

theorem insertSchema_append {m : List (String × String)} {k v : String}
    (h : ∀ p ∈ m, p.1 ≠ k) : insertSchema m k v = m ++ [(k, v)] := by
  induction m with
  | nil => rfl
  | cons p m' ih =>
    unfold insertSchema
    rw [if_neg (h p (List.mem_cons_self _ _))]
    rw [ih (fun q hq => h q (List.mem_cons_of_mem _ hq))]
    rfl

theorem writeSchema_fold (l : List Tool) (acc : List (String × String))
    (hd : ∀ t ∈ l, ∀ p ∈ acc, p.1 ≠ t.importPath)
    (hn : (l.map (fun t => t.importPath)).Nodup) :
    l.foldl (fun m t => insertSchema m t.importPath t.version) acc =
      acc ++ l.map (fun t => (t.importPath, t.version)) := by
  induction l generalizing acc with
  | nil => simp
  | cons t l' ih =>
    simp only [List.foldl_cons]
    rw [insertSchema_append (fun p hp => hd t (List.mem_cons_self _ _) p hp)]
    rw [List.map_cons, List.nodup_cons] at hn
    rw [ih (acc ++ [(t.importPath, t.version)]) ?_ hn.2]
    · simp
    · intro u hu p hp
      rcases List.mem_append.mp hp with hacc | hone
      · exact hd u (List.mem_cons_of_mem _ hu) p hacc
      · have hp1 : p.1 = t.importPath := by
          rcases List.mem_singleton.mp hone with rfl; rfl
        rw [hp1]
        intro he
        exact hn.1 (he ▸ List.mem_map_of_mem (fun t => t.importPath) hu)

/-- A good entry, an at-sign-free valid module path with a canonical
semantic version, strict-parses back to exactly that pair. -/
theorem parseTool_strict_good (p v : String) (hp : '@' ∉ p.data)
    (hcp : checkPath p = true) (hsv : svIsValid v = true)
    (hcan : svCanonical v = v) :
    parseTool (p ++ "@" ++ v) true = .ok ⟨p, v⟩ := by
  have hvne : v ≠ "" := by
    intro he
    rw [he] at hsv
    exact absurd hsv (by decide)
  have hat : ("@" : String).data = ['@'] := rfl
  have hd : (p ++ "@" ++ v).data = p.data ++ '@' :: v.data := by
    rw [strData_append, strData_append, hat, List.append_assoc]
    rfl
  have hvd : v.data ≠ [] := fun h => hvne ((strData_nil_iff v).mp h)
  unfold parseTool
  simp only [hd, breakAt_split hp]
  rw [if_neg hvd]
  unfold parseToolRest
  rw [strEta, strEta]
  rw [if_neg (by simp [hcp]), if_neg (by simp), if_neg (by simp [hsv]), hcan]

theorem parseLockfile_fold (es : List (String × String)) :
    ∀ acc : List ParseErr × Lockfile,
    (∀ e ∈ es, parseTool (e.1 ++ "@" ++ e.2) true = .ok ⟨e.1, e.2⟩) →
    (es.foldl parseStep acc).1 = acc.1 ∧
    (es.foldl parseStep acc).2.tools =
      acc.2.tools ++ es.map (fun e => (⟨e.1, e.2⟩ : Tool)) := by
  induction es with
  | nil => intro acc _; simp
  | cons e es' ih =>
    intro acc h
    have hstep1 : (parseStep acc e).1 = acc.1 := by
      unfold parseStep
      rw [h e (List.mem_cons_self _ _)]
    have hstep2 : (parseStep acc e).2.tools = acc.2.tools ++ [(⟨e.1, e.2⟩ : Tool)] := by
      unfold parseStep
      rw [h e (List.mem_cons_self _ _)]
    obtain ⟨h1, h2⟩ := ih (parseStep acc e) (fun e' he' => h e' (List.mem_cons_of_mem _ he'))
    simp only [List.foldl_cons]
    refine ⟨by rw [h1, hstep1], ?_⟩
    rw [h2, hstep2]
    simp

/-- C5 amended: for a lockfile whose stored tools have pairwise
distinct import paths, canonical semantic versions and at-sign-free valid module
paths, writing the schema and parsing it back under any enumeration order
of the JSON object yields a lockfile iterating the same multiset of
tools. -/
theorem writeTo_parse_roundtrip (lf : Lockfile) (es : List (String × String))
    (hnodup : (lf.tools.map (fun t => t.importPath)).Nodup)
    (hvalid : ∀ t ∈ lf.tools,
      t.hasSemver = true ∧ checkPath t.importPath = true ∧ '@' ∉ t.importPath.data)
    (hperm : es.Perm (writeSchema lf)) :
    ∃ lf', parseLockfile es = .ok lf' ∧ lf'.tools.Perm (iterTools lf) := by
  have hws : writeSchema lf = lf.tools.map (fun t => (t.importPath, t.version)) := by
    unfold writeSchema
    rw [writeSchema_fold lf.tools [] (by simp) hnodup]
    rfl
  have hperm' : es.Perm (lf.tools.map fun t => (t.importPath, t.version)) := hws ▸ hperm
  have hall : ∀ e ∈ es, parseTool (e.1 ++ "@" ++ e.2) true = .ok ⟨e.1, e.2⟩ := by
    intro e he
    have hmem : e ∈ lf.tools.map (fun t => (t.importPath, t.version)) :=
      hperm'.mem_iff.mp he
    obtain ⟨t, ht, hte⟩ := List.mem_map.mp hmem
    obtain ⟨hs, hcp, hat⟩ := hvalid t ht
    have hs' := (Bool.and_eq_true _ _).mp hs
    have hsv : svIsValid t.version = true := hs'.1
    have hcan : svCanonical t.version = t.version := by
      have := hs'.2
      exact (eq_of_beq this).symm
    subst hte
    exact parseTool_strict_good _ _ hat hcp hsv hcan
  obtain ⟨h1, h2⟩ := parseLockfile_fold es ([], emptyLockfile) hall
  refine ⟨(es.foldl parseStep ([], emptyLockfile)).2, ?_, ?_⟩
  · unfold parseLockfile
    rw [if_pos h1]
  · rw [h2]
    have hmap : (lf.tools.map (fun t => (t.importPath, t.version))).map
        (fun e => (⟨e.1, e.2⟩ : Tool)) = lf.tools := by
      rw [List.map_map]
      exact List.map_id' lf.tools
    have hp2 := hperm'.map (fun e => (⟨e.1, e.2⟩ : Tool))
    rw [hmap] at hp2
    simpa [iterTools, emptyLockfile] using hp2

/-- C5 witness: a two-tool lockfile round-trips through the schema under a
reversed enumeration order. -/
theorem writeTo_parse_roundtrip_witness :
    ∃ lf', parseLockfile [("b.com/y", "v2.0.0"), ("a.com/x", "v1.0.0")] = .ok lf' ∧
      lf'.tools.Perm (iterTools ⟨[⟨"a.com/x", "v1.0.0"⟩, ⟨"b.com/y", "v2.0.0"⟩],
        [("x", [0]), ("y", [1])]⟩) :=
  writeTo_parse_roundtrip
    ⟨[⟨"a.com/x", "v1.0.0"⟩, ⟨"b.com/y", "v2.0.0"⟩], [("x", [0]), ("y", [1])]⟩
    [("b.com/y", "v2.0.0"), ("a.com/x", "v1.0.0")]
    (by decide) (by decide) (by decide)

/-- C5 counterexample: the claim fails for every lockfile: a reachable
lockfile can store a tool whose import path fails the module-path grammar
(PutTool never validates it), and Parse then rejects the serialised form
instead of round-tripping. -/
theorem writeTo_parse_roundtrip_counterexample :
    putTool emptyLockfile ⟨"foo/bar", "v1.0.0"⟩ =
      .ok ⟨[⟨"foo/bar", "v1.0.0"⟩], [("bar", [0])]⟩ ∧
    writeSchema ⟨[⟨"foo/bar", "v1.0.0"⟩], [("bar", [0])]⟩ = [("foo/bar", "v1.0.0")] ∧
    parseLockfile [("foo/bar", "v1.0.0")] = .error [.invalidPath] := by
  decide

/-- C2 counterexample: the claim fails as stated.  With a prior tool whose
binary name equals the new tool's entire import path, PutTool succeeds but
GetTool of that import path fails with MultipleTools instead of returning
the inserted tool: the short-name fast path sees two entries. -/
theorem putTool_getTool_roundtrip_counterexample :
    Tool.hasSemver ⟨"example.com", "v1.0.0"⟩ = true ∧
    putTool emptyLockfile ⟨"a.com/example.com", "v1.0.0"⟩ =
      .ok ⟨[⟨"a.com/example.com", "v1.0.0"⟩], [("example.com", [0])]⟩ ∧
    putTool ⟨[⟨"a.com/example.com", "v1.0.0"⟩], [("example.com", [0])]⟩
        ⟨"example.com", "v1.0.0"⟩ =
      .ok ⟨[⟨"a.com/example.com", "v1.0.0"⟩, ⟨"example.com", "v1.0.0"⟩],
           [("example.com", [0, 1])]⟩ ∧
    getTool ⟨[⟨"a.com/example.com", "v1.0.0"⟩, ⟨"example.com", "v1.0.0"⟩],
             [("example.com", [0, 1])]⟩ "example.com" = .errMultipleTools := by
  decide

/-! ### Request-set computation (Shed.Get, claim C8) -/

/-- Errors collected by Shed.Get: an invalid tool name, or an explicit
version given together with the update flag. -/
inductive GetErr
  | badName (e : ParseErr)
  | versionWithUpdate
deriving DecidableEq

/-- One requested-name step of Shed.Get: lax-parse the name, and in update
mode reject a version other than empty, none or latest and force latest;
the accumulator carries collected errors, seen import paths, and the tools
gathered so far. -/
def getNameStep (update : Bool) (acc : List GetErr × List String × List Tool)
    (name : String) : List GetErr × List String × List Tool :=
  match parseTool name false with
  | .error e => (acc.1 ++ [.badName e], acc.2.1, acc.2.2)
  | .ok t =>
    if update then
      if t.version ≠ "" ∧ t.version ≠ "none" ∧ t.version ≠ "latest" then
        (acc.1 ++ [.versionWithUpdate], acc.2.1, acc.2.2)
      else
        (acc.1, acc.2.1 ++ [t.importPath], acc.2.2 ++ [⟨t.importPath, "latest"⟩])
    else (acc.1, acc.2.1 ++ [t.importPath], acc.2.2 ++ [t])

/-- One lockfile-union step of Shed.Get: skip import paths already in the
request; when updating the whole lockfile, rewrite the version to latest
except when the stored version has a prerelease suffix. -/
def getUnionStep (updateAll : Bool) (seen : List String) (ts : List Tool) (t : Tool) :
    List Tool :=
  if seen.contains t.importPath then ts
  else if updateAll = true ∧ svPrerelease t.version = "" then
    ts ++ [⟨t.importPath, "latest"⟩]
  else ts ++ [t]

structure GetOpts where
  toolNames : List String
  update : Bool

/-- Shed.Get: lax-parse and validate the requested names, return all
collected errors if any, else union the request with the lockfile tools. -/
def shedGet (lf : Lockfile) (opts : GetOpts) : Except (List GetErr) (List Tool) :=
  if (opts.toolNames.foldl (getNameStep opts.update) ([], [], [])).1 ≠ [] then
    .error (opts.toolNames.foldl (getNameStep opts.update) ([], [], [])).1
  else
    .ok ((iterTools lf).foldl
      (getUnionStep (opts.update && opts.toolNames.isEmpty)
        (opts.toolNames.foldl (getNameStep opts.update) ([], [], [])).2.1)
      (opts.toolNames.foldl (getNameStep opts.update) ([], [], [])).2.2)

/-- C8: when Get runs with update set and no tool names, on a lockfile
whose stored versions are canonical semantic versions, every tool whose
version carries a dash prerelease suffix keeps its stored version in the
produced install set, while every other tool has its version rewritten to
latest. -/
theorem get_update_preserves_prerelease (lf : Lockfile)
    (h : ∀ t ∈ lf.tools, t.hasSemver = true) :
    shedGet lf ⟨[], true⟩ =
      .ok ((iterTools lf).map (fun t =>
        if t.version.data.contains '-' = true then t
        else ⟨t.importPath, "latest"⟩)) := by
  unfold shedGet
  simp only [List.foldl_nil]
  rw [if_neg (by simp)]
  have hfold : ∀ (l : List Tool) (ts0 : List Tool), (∀ t ∈ l, t.hasSemver = true) →
      l.foldl (getUnionStep true []) ts0 =
        ts0 ++ l.map (fun t =>
          if t.version.data.contains '-' = true then t else ⟨t.importPath, "latest"⟩) := by
    intro l
    induction l with
    | nil => intro ts0 _; simp
    | cons t l' ih =>
      intro ts0 hall
      simp only [List.foldl_cons, List.map_cons]
      have hsem := hall t (List.mem_cons_self _ _)
      have hand := (Bool.and_eq_true _ _).mp hsem
      have hiff := prerelease_empty_iff hand.1 (eq_of_beq hand.2).symm
      have hstep : getUnionStep true [] ts0 t =
          ts0 ++ [if t.version.data.contains '-' = true then t
                  else ⟨t.importPath, "latest"⟩] := by
        unfold getUnionStep
        rw [if_neg (by simp [List.contains, List.elem])]
        by_cases hd : t.version.data.contains '-' = true
        · have hpne : ¬(svPrerelease t.version = "") := by
            intro hpe
            rw [hiff.mp hpe] at hd
            exact absurd hd (by simp)
          rw [if_neg (fun hcon => hpne hcon.2), if_pos hd]
        · have hpe : svPrerelease t.version = "" := hiff.mpr (by simpa using hd)
          rw [if_pos ⟨rfl, hpe⟩, if_neg hd]
      rw [hstep, ih (ts0 ++ [_]) (fun u hu => hall u (List.mem_cons_of_mem _ hu))]
      simp
  have := hfold lf.tools [] h
  simpa [iterTools] using this

/-- C8 witness: a lockfile with one prerelease tool and one plain tool; the
prerelease version is kept and the other is rewritten to latest. -/
theorem get_update_preserves_prerelease_witness :
    shedGet ⟨[⟨"a.com/x", "v1.2.3-beta"⟩, ⟨"b.com/y", "v1.0.0"⟩], [("x", [0]), ("y", [1])]⟩
        ⟨[], true⟩ =
      .ok [⟨"a.com/x", "v1.2.3-beta"⟩, ⟨"b.com/y", "latest"⟩] := by
  rw [get_update_preserves_prerelease _ (by decide)]
  decide

/-! ### Install pipeline apply (InstallSet.Apply, claim C6)

The bounded-concurrency dispatcher of Apply is embedded functionally: each
tool of the install set independently produces a result (a tool whose
version is none is marked for removal without calling the cache), and the
nondeterministic completion order is an explicit parameter, a permutation
of the install set.  The context is modelled as never cancelled and the
cache install behaviour as a function from tools to results.  Results are
collected in completion order: a per-tool error is recorded and the
collection continues; each success is forwarded to the notification list
as it arrives.  Only when no error occurred are the lockfile mutations
committed and the lockfile schema written to disk with a truncating
write. -/

/-- The per-tool outcome inside the Apply dispatcher. -/
def applyOutcome (installF : Tool → Except Unit Tool) (t : Tool) : Except Unit Tool :=
  if t.version = "none" then .ok t else installF t

def exceptErrToOption : Except Unit Tool → Option Unit
  | .error e => some e
  | .ok _ => none

def exceptOkToOption : Except Unit Tool → Option Tool
  | .ok t => some t
  | .error _ => none

/-- The commit loop of Apply: a tool at version none is deleted from the
lockfile with its version cleared; every other completed tool is stored
with PutTool, whose failure aborts the commit with an error.  none models
a Go panic from a corrupted index. -/
def commitTools : Lockfile → List Tool → Option (Bool × Lockfile)
  | lf, [] => some (true, lf)
  | lf, t :: rest =>
    if t.version = "none" then
      match deleteTool lf ⟨t.importPath, ""⟩ with
      | none => none
      | some lf' => commitTools lf' rest
    else
      match putTool lf t with
      | .crash => none
      | .errInvalidVersion lf' => some (false, lf')
      | .ok lf' => commitTools lf' rest

/-- The observable result of Apply: the returned value, the in-memory
lockfile, the last schema written to the lockfile path, and the tools sent
to the notification channel. -/
structure ApplyResult where
  res : Except (List Unit) Unit
  lf : Lockfile
  disk : Option (List (String × String))
  notified : List Tool
deriving DecidableEq

/-- InstallSet.Apply with completion order arrival: collect all results,
and either return every per-tool error with no state change, or commit the
mutations and persist the lockfile. -/
def applyModel (installF : Tool → Except Unit Tool) (arrival : List Tool)
    (lf : Lockfile) (disk : Option (List (String × String))) : Option ApplyResult :=
  if ((arrival.map (applyOutcome installF)).filterMap exceptErrToOption) ≠ [] then
    some ⟨.error ((arrival.map (applyOutcome installF)).filterMap exceptErrToOption),
      lf, disk, (arrival.map (applyOutcome installF)).filterMap exceptOkToOption⟩
  else
    match commitTools lf ((arrival.map (applyOutcome installF)).filterMap exceptOkToOption) with
    | none => none
    | some (false, lf') =>
      some ⟨.error [()], lf', disk,
        (arrival.map (applyOutcome installF)).filterMap exceptOkToOption⟩
    | some (true, lf') =>
      some ⟨.ok (), lf', some (writeSchema lf'),
        (arrival.map (applyOutcome installF)).filterMap exceptOkToOption⟩

/-- C6: if any per-tool install fails, Apply still collects a result for
every tool of the set: it returns the aggregated error list with exactly
one entry per failing tool regardless of completion order, commits no
mutation to the in-memory lockfile, and writes nothing to disk. -/
theorem apply_aggregates_errors_without_commit
    (installF : Tool → Except Unit Tool) (tools arrival : List Tool)
    (lf : Lockfile) (disk : Option (List (String × String)))
    (hperm : arrival.Perm tools)
    (hfail : ∃ t ∈ tools, exceptIsOk (applyOutcome installF t) = false) :
    applyModel installF arrival lf disk =
      some ⟨.error ((arrival.map (applyOutcome installF)).filterMap exceptErrToOption),
        lf, disk, (arrival.map (applyOutcome installF)).filterMap exceptOkToOption⟩ ∧
    ((arrival.map (applyOutcome installF)).filterMap exceptErrToOption).length =
      tools.countP (fun t => !exceptIsOk (applyOutcome installF t)) := by
  have hcount : ∀ l : List Tool,
      ((l.map (applyOutcome installF)).filterMap exceptErrToOption).length =
        l.countP (fun t => !exceptIsOk (applyOutcome installF t)) := by
    intro l
    induction l with
    | nil => rfl
    | cons t l' ih =>
      rw [List.map_cons, List.filterMap_cons, List.countP_cons]
      cases hr : applyOutcome installF t with
      | ok u =>
        simp only [exceptErrToOption, ih]
        simp [exceptIsOk]
      | error e =>
        simp only [exceptErrToOption, List.length_cons, ih]
        simp [exceptIsOk]
  have hpos : 0 < tools.countP (fun t => !exceptIsOk (applyOutcome installF t)) := by
    rw [List.countP_pos]
    obtain ⟨t, ht, hf⟩ := hfail
    exact ⟨t, ht, by simp [hf]⟩
  have hlen : 0 <
      ((arrival.map (applyOutcome installF)).filterMap exceptErrToOption).length := by
    rw [hcount arrival, hperm.countP_eq]
    exact hpos
  have hne : ((arrival.map (applyOutcome installF)).filterMap exceptErrToOption) ≠ [] := by
    intro he
    rw [he] at hlen
    simp at hlen
  constructor
  · unfold applyModel
    rw [if_pos hne]
  · rw [hcount arrival, hperm.countP_eq]

/-- A concrete install behaviour with a single failing import path, used by
the apply witness. -/
def c6InstallF : Tool → Except Unit Tool :=
  fun t => if t.importPath = "bad.com/x" then .error () else .ok t

/-- C6 witness: a two-tool set with one failing install, run in reversed
completion order: the single error is aggregated and the lockfile and disk
are untouched. -/
theorem apply_aggregates_errors_without_commit_witness :
    applyModel c6InstallF [⟨"bad.com/x", "v1.0.0"⟩, ⟨"good.com/a", "v1.0.0"⟩]
        emptyLockfile none =
      some ⟨.error [()], emptyLockfile, none, [⟨"good.com/a", "v1.0.0"⟩]⟩ ∧
    ([(⟨"bad.com/x", "v1.0.0"⟩ : Tool), ⟨"good.com/a", "v1.0.0"⟩].map
        (applyOutcome c6InstallF) |>.filterMap exceptErrToOption).length =
      [(⟨"good.com/a", "v1.0.0"⟩ : Tool), ⟨"bad.com/x", "v1.0.0"⟩].countP
        (fun t => !exceptIsOk (applyOutcome c6InstallF t)) := by
  have h := apply_aggregates_errors_without_commit c6InstallF
    [⟨"good.com/a", "v1.0.0"⟩, ⟨"bad.com/x", "v1.0.0"⟩]
    [⟨"bad.com/x", "v1.0.0"⟩, ⟨"good.com/a", "v1.0.0"⟩]
    emptyLockfile none (by decide) (by decide)
  refine ⟨?_, h.2⟩
  rw [h.1]
  decide

/-! ### Lockfile path resolution (ResolveLockfilePath, claim C9)

The filesystem is a predicate on paths (FileOrDirExists).  The Go loop
walks from the start directory to successive parents via filepath.Dir,
checking filepath.Join(dir, "shed.lock") at each step, and stops when a
directory equals its own parent.  filepath.Dir and filepath.Join are
external Go standard library code; they are modelled from the spec for
slash-separated paths.  The loop is embedded with explicit fuel; the fuel
muPath dir + 1 is proved sufficient via a strictly decreasing measure. -/

/-- Modelled from the spec: the characters before the last slash of a
path, or none when the path has no slash. -/
def lastPre : List Char → Option (List Char)
  | [] => none
  | c :: cs =>
    match lastPre cs with
    | some pre => some (c :: pre)
    | none => if c = '/' then some [] else none

/-- Modelled from the spec: filepath.Dir on a clean slash-separated path:
everything before the last slash, with no slash giving the current
directory and a bare leading slash giving the root. -/
def dirOf (p : String) : String :=
  match lastPre p.data with
  | none => "."
  | some [] => "/"
  | some pre => ⟨pre⟩

/-- Modelled from the spec: filepath.Join of a clean directory and a bare
file name. -/
def join2 (dir name : String) : String :=
  if dir = "" then name
  else if dir = "." then name
  else if dir = "/" then "/" ++ name
  else dir ++ "/" ++ name

/-- Modelled from the spec: filepath.IsAbs on unix paths. -/
def isAbs (p : String) : Bool := headIs '/' p.data

/-- Termination measure for the parent walk: paths at a parent fixed point
cost their length, all others two more. -/
def muPath (p : String) : Nat :=
  p.data.length + (if dirOf p = p then 0 else 2)

/-- The loop body of ResolveLockfilePath with explicit fuel. -/
def resolveLoopF (fs : String → Bool) : Nat → String → String → String
  | 0, _, _ => ""
  | fuel + 1, dir, prev =>
    if dir = prev then ""
    else
      if fs (join2 dir "shed.lock") then join2 dir "shed.lock"
      else resolveLoopF fs fuel (dirOf dir) dir

/-- ResolveLockfilePath: an empty start directory becomes the current
directory, then the parent walk runs with sufficient fuel and an empty
initial previous directory, exactly as the Go loop. -/
def ResolveLockfilePath (fs : String → Bool) (dir : String) : String :=
  resolveLoopF fs (muPath (if dir = "" then "." else dir) + 1)
    (if dir = "" then "." else dir) ""

/-- The chain of directories the walk examines: the start directory and
each successive parent, up to the first parent fixed point, with fuel. -/
def parentChainF : Nat → String → List String
  | 0, _ => []
  | fuel + 1, dir =>
    dir :: (if dirOf dir = dir then [] else parentChainF fuel (dirOf dir))

/-- The parent chain of a directory, with fuel proved sufficient below. -/
def parentChain (dir : String) : List String :=
  parentChainF (muPath dir + 1) dir

/-- The declarative resolver: the lockfile path in the first chain
directory that has one, else the empty string. -/
def chainFind (fs : String → Bool) (l : List String) : String :=
  match l.find? (fun p => fs (join2 p "shed.lock")) with
  | some p => join2 p "shed.lock"
  | none => ""

lemma lastPre_length : ∀ (l pre : List Char), lastPre l = some pre → pre.length < l.length := by
  intro l
  induction l with
  | nil => intro pre h; simp [lastPre] at h
  | cons c cs ih =>
    intro pre h
    simp only [lastPre] at h
    cases hr : lastPre cs with
    | some q =>
      rw [hr] at h
      injection h with h2
      have hlt := ih q hr
      rw [← h2]
      simp only [List.length_cons]
      omega
    | none =>
      rw [hr] at h
      by_cases hc : c = '/'
      · rw [if_pos hc] at h
        injection h with h2
        rw [← h2]
        simp
      · rw [if_neg hc] at h
        exact absurd h (by simp)

lemma muPath_pos (p : String) : 0 < muPath p := by
  unfold muPath
  cases hd : p.data with
  | nil =>
    have hp : p = "" := by
      cases p with
      | mk d => simp at hd; rw [hd]
    rw [hp]
    decide
  | cons c cs => simp

lemma dirOf_decrease (p : String) (h : dirOf p ≠ p) : muPath (dirOf p) < muPath p := by
  have hmu : muPath p = p.data.length + 2 := by
    unfold muPath
    rw [if_neg h]
  cases hl : lastPre p.data with
  | none =>
    have hd : dirOf p = "." := by unfold dirOf; rw [hl]
    rw [hd, hmu]
    have : muPath "." = 1 := by decide
    rw [this]
    omega
  | some pre =>
    cases pre with
    | nil =>
      have hd : dirOf p = "/" := by unfold dirOf; rw [hl]
      rw [hd, hmu]
      have : muPath "/" = 1 := by decide
      rw [this]
      omega
    | cons c cs =>
      have hd : dirOf p = ⟨c :: cs⟩ := by unfold dirOf; rw [hl]
      have hlen : (c :: cs).length < p.data.length := lastPre_length p.data (c :: cs) hl
      have hb : muPath ⟨c :: cs⟩ ≤ (c :: cs).length + 2 := by
        show (c :: cs).length + (if dirOf ⟨c :: cs⟩ = (⟨c :: cs⟩ : String) then 0 else 2) ≤
          (c :: cs).length + 2
        by_cases hfix : dirOf ⟨c :: cs⟩ = (⟨c :: cs⟩ : String)
        · rw [if_pos hfix]; omega
        · rw [if_neg hfix]
      rw [hd, hmu]
      omega

lemma parentChainF_congr : ∀ (k n m : Nat) (dir : String),
    muPath dir ≤ k → muPath dir < n → muPath dir < m →
    parentChainF n dir = parentChainF m dir := by
  intro k
  induction k with
  | zero =>
    intro n m dir hk _ _
    exact absurd hk (by have := muPath_pos dir; omega)
  | succ k ih =>
    intro n m dir hk hn hm
    match n, m with
    | n' + 1, m' + 1 =>
      show dir :: _ = dir :: _
      by_cases hfix : dirOf dir = dir
      · rw [if_pos hfix, if_pos hfix]
      · rw [if_neg hfix, if_neg hfix]
        have hdec := dirOf_decrease dir hfix
        have h1 := ih n' (muPath (dirOf dir) + 1) (dirOf dir)
          (by omega) (by omega) (by omega)
        have h2 := ih m' (muPath (dirOf dir) + 1) (dirOf dir)
          (by omega) (by omega) (by omega)
        rw [h1, h2]

lemma resolveLoopF_chain : ∀ (k n : Nat) (fs : String → Bool) (dir prev : String),
    muPath dir ≤ k → muPath dir < n → dir ≠ prev →
    resolveLoopF fs n dir prev = chainFind fs (parentChain dir) := by
  intro k
  induction k with
  | zero =>
    intro n fs dir prev hk _ _
    exact absurd hk (by have := muPath_pos dir; omega)
  | succ k ih =>
    intro n fs dir prev hk hn hne
    match n with
    | n' + 1 =>
      have hchain : parentChain dir =
          dir :: (if dirOf dir = dir then [] else parentChainF (muPath dir) (dirOf dir)) := rfl
      show (if dir = prev then ""
        else if fs (join2 dir "shed.lock") then join2 dir "shed.lock"
        else resolveLoopF fs n' (dirOf dir) dir) = _
      rw [if_neg hne]
      by_cases hfs : fs (join2 dir "shed.lock") = true
      · rw [if_pos hfs]
        unfold chainFind
        rw [hchain]
        simp only [List.find?_cons, hfs]
      · rw [if_neg hfs]
        have hfs2 : fs (join2 dir "shed.lock") = false := by
          simpa using hfs
        by_cases hfix : dirOf dir = dir
        · have hn1 : 1 ≤ n' := by have := muPath_pos dir; omega
          match n' with
          | n'' + 1 =>
            rw [hfix]
            show (if dir = dir then "" else _) = _
            rw [if_pos rfl]
            unfold chainFind
            rw [hchain, if_pos hfix]
            simp only [List.find?_cons, List.find?_nil, hfs2]
        · have hdec := dirOf_decrease dir hfix
          have hrec := ih n' fs (dirOf dir) dir (by omega) (by omega) hfix
          rw [hrec]
          unfold chainFind
          rw [hchain, if_neg hfix]
          simp only [List.find?_cons, hfs2]
          have hcongr : parentChainF (muPath dir) (dirOf dir) =
              parentChainF (muPath (dirOf dir) + 1) (dirOf dir) :=
            parentChainF_congr (muPath (dirOf dir)) (muPath dir)
              (muPath (dirOf dir) + 1) (dirOf dir) (by omega) (by omega) (by omega)
          rw [hcongr]
          rfl

lemma resolveLockfilePath_eq_chainFind (fs : String → Bool) (dir : String) :
    ResolveLockfilePath fs dir = chainFind fs (parentChain (if dir = "" then "." else dir)) := by
  unfold ResolveLockfilePath
  have hne : (if dir = "" then "." else dir) ≠ "" := by
    by_cases h : dir = ""
    · rw [if_pos h]; decide
    · rw [if_neg h]; exact h
  exact resolveLoopF_chain (muPath (if dir = "" then "." else dir))
    (muPath (if dir = "" then "." else dir) + 1) fs _ "" (by omega) (by omega) hne

lemma chainFind_congr : ∀ (fs fs' : String → Bool) (l : List String),
    (∀ p ∈ l, fs' (join2 p "shed.lock") = fs (join2 p "shed.lock")) →
    chainFind fs' l = chainFind fs l := by
  intro fs fs' l
  induction l with
  | nil => intro _; rfl
  | cons a l' ih =>
    intro h
    unfold chainFind
    simp only [List.find?_cons]
    have ha := h a (by simp)
    rw [ha]
    cases hv : fs (join2 a "shed.lock") with
    | true => rfl
    | false =>
      exact ih (fun p hp => h p (List.mem_cons_of_mem a hp))

/-- C9: the resolver examines exactly the start directory (the current
directory for an empty start) and its successive parents up to the first
parent fixed point: it returns the joined lockfile path of the first chain
directory containing shed.lock, returns the empty string when no chain
directory contains one, depends only on lockfile presence along the chain
(so sibling directories are never inspected), and treats an empty start
directory as the current directory.  The returned path is the join of a
chain directory with shed.lock, not an absolute path in general. -/
theorem resolveLockfilePath_parent_chain (fs : String → Bool) (dir : String) :
    ResolveLockfilePath fs dir =
      chainFind fs (parentChain (if dir = "" then "." else dir)) ∧
    ResolveLockfilePath fs "" = ResolveLockfilePath fs "." ∧
    (∀ fs' : String → Bool,
      (∀ p ∈ parentChain (if dir = "" then "." else dir),
        fs' (join2 p "shed.lock") = fs (join2 p "shed.lock")) →
      ResolveLockfilePath fs' dir = ResolveLockfilePath fs dir) ∧
    ((∀ p ∈ parentChain (if dir = "" then "." else dir),
        fs (join2 p "shed.lock") = false) →
      ResolveLockfilePath fs dir = "") := by
  refine ⟨resolveLockfilePath_eq_chainFind fs dir, ?_, ?_, ?_⟩
  · rw [resolveLockfilePath_eq_chainFind fs "", resolveLockfilePath_eq_chainFind fs "."]
    have hdot : ("." : String) ≠ "" := by decide
    rw [if_pos rfl, if_neg hdot]
  · intro fs' hagree
    rw [resolveLockfilePath_eq_chainFind fs dir, resolveLockfilePath_eq_chainFind fs' dir]
    exact chainFind_congr fs fs' _ hagree
  · intro hnone
    rw [resolveLockfilePath_eq_chainFind fs dir]
    unfold chainFind
    have hfind : (parentChain (if dir = "" then "." else dir)).find?
        (fun p => fs (join2 p "shed.lock")) = none := by
      rw [List.find?_eq_none]
      intro p hp
      simp [hnone p hp]
    rw [hfind]

/-- C9 witness: on a filesystem holding only b/shed.lock, starting at
b/c/d, the resolver walks b/c/d, b/c, b and stops with the found path; and
a lockfile living only in a sibling directory is never found from the
start directory. -/
theorem resolveLockfilePath_parent_chain_witness :
    ResolveLockfilePath (fun p => p == "b/shed.lock") "b/c/d" =
      chainFind (fun p => p == "b/shed.lock") (parentChain "b/c/d") ∧
    ResolveLockfilePath (fun p => p == "sibling/shed.lock") "start" = "" := by
  constructor
  · have h := resolveLockfilePath_parent_chain (fun p => p == "b/shed.lock") "b/c/d"
    rw [h.1]
    decide
  · have h := resolveLockfilePath_parent_chain (fun p => p == "sibling/shed.lock") "start"
    exact h.2.2.2 (by decide)

/-- C9 counterexample to the claim as stated: for a relative start
directory the result is a relative path, not an absolute one: starting at
a/b with the lockfile at a/shed.lock, the resolver returns a/shed.lock,
which is not absolute. -/
theorem resolveLockfilePath_relative_counterexample :
    ResolveLockfilePath (fun p => p == "a/shed.lock") "a/b" = "a/shed.lock" ∧
    isAbs "a/shed.lock" = false := by
  constructor
  · decide
  · decide

/-! ### Cache install (cache package, part_025 snapshot, claim C7)

The cache directory is a finite map from slash-separated paths to nodes: a
directory marker, a parsed manifest (a go.mod require list), or a built
binary.  The Go toolchain driver is a function from the module query to
the require list that go get leaves in the scratch manifest, and Build
always succeeds, writing a binary node; both are deterministic and the
context is modelled as never cancelled.  The helpers readGoModFile,
createGoModFile, writeGoModFile, getModule and the constant modfileName
live in repository files outside the provided sources and are modelled
from the spec. -/

/-- One require directive of a manifest. -/
structure Require where
  path : String
  version : String
  indirect : Bool
deriving DecidableEq

/-- A filesystem node of the cache model. -/
inductive Node where
  | dir : Node
  | modf : List Require → Node
  | bin : Node
deriving DecidableEq

def fsGet : List (String × Node) → String → Option Node
  | [], _ => none
  | (k, v) :: rest, p => if k = p then some v else fsGet rest p

def fsSet : List (String × Node) → String → Node → List (String × Node)
  | [], p, v => [(p, v)]
  | (k, w) :: rest, p, v => if k = p then (p, v) :: rest else (k, w) :: fsSet rest p v

/-- util.FileOrDirExists. -/
def fsExists (fs : List (String × Node)) (p : String) : Bool :=
  (fsGet fs p).isSome

def listIsPre : List Char → List Char → Bool
  | [], _ => true
  | _ :: _, [] => false
  | a :: as, b :: bs => a == b && listIsPre as bs

/-- strings.HasPrefix s pre. -/
def strHasPre (s pre : String) : Bool := listIsPre pre.data s.data

/-- Whether a path equals a base path or lies strictly below it. -/
def isUnder (base k : String) : Bool :=
  k == base || listIsPre (base.data ++ ['/']) k.data

/-- os.RemoveAll: drops a path and everything below it. -/
def fsRemoveAll (fs : List (String × Node)) (p : String) : List (String × Node) :=
  fs.filter (fun e => !isUnder p e.1)

/-- os.Rename of a directory: every key at or below the old path is
rewritten to the new path. -/
def fsRename (fs : List (String × Node)) (o n : String) : List (String × Node) :=
  fs.map (fun e =>
    if isUnder o e.1 then ((⟨n.data ++ e.1.data.drop o.data.length⟩ : String), e.2) else e)

/-- Modelled from the spec: the manifest file name used by the cache. -/
def modfileName : String := "go.mod"

/-- Modelled from the spec: readGoModFile yields nothing for a missing
file, the parsed require list for a manifest, and an error for anything
unparseable. -/
def readGoModFile (fs : List (String × Node)) (p : String) :
    Except Unit (Option (List Require)) :=
  match fsGet fs p with
  | none => .ok none
  | some (Node.modf rs) => .ok (some rs)
  | some _ => .error ()

/-- Modelled from the spec: getModule finds the first require whose module
path is a prefix of the import path of the tool. -/
def getModule (rs : List Require) (t : Tool) : Option Require :=
  rs.find? (fun r => strHasPre t.importPath r.path)

/-- modfile.DropRequire: removes every require of the given path. -/
def dropRequire (rs : List Require) (p : String) : List Require :=
  rs.filter (fun r => !(r.path == p))

/-- The validation part of Cache.download for a tool with a semantic
version: the manifest exists, parses, resolves the module of the tool and
records exactly the requested version. -/
def skipDownload (fs : List (String × Node)) (t : Tool) (modfilePath : String) : Bool :=
  match fsGet fs modfilePath with
  | some (Node.modf rs) =>
    match getModule rs t with
    | some r => r.version == t.version
    | none => false
  | _ => false

/-- The filesystem effect of the download preparation: MkdirAll on the
scratch directory, RemoveAll on the manifest, a fresh empty manifest, then
goClient.GetD filling it with the resolved requires. -/
def downloadWrite (D : String → List Require) (fs : List (String × Node))
    (t : Tool) (modDir modfilePath : String) : List (String × Node) :=
  fsSet
    (fsSet
      (fsRemoveAll (if fsExists fs modDir then fs else fsSet fs modDir Node.dir) modfilePath)
      modfilePath (Node.modf []))
    modfilePath (Node.modf (D t.moduleStr))

/-- Cache.download: skip when a valid manifest exists for a semver tool,
otherwise (re)download, resolve the installed module, check or adopt its
version, rename the scratch directory for a resolved version unless the
target exists, and write back the manifest with the module as a direct
require. -/
def downloadModel (D : String → List Require) (root : String)
    (fs : List (String × Node)) (t : Tool) : Except Unit (Tool × List (String × Node)) :=
  match t.filepath with
  | none => .error ()
  | some fp =>
    if t.hasSemver = true ∧
        skipDownload fs t (join2 (join2 (join2 root "tools") fp) modfileName) = true then
      .ok (t, fs)
    else
      match getModule (D t.moduleStr) t with
      | none => .error ()
      | some r =>
        if t.hasSemver = true then
          if r.version = t.version then
            .ok (t, fsSet
              (downloadWrite D fs t (join2 (join2 root "tools") fp)
                (join2 (join2 (join2 root "tools") fp) modfileName))
              (join2 (join2 (join2 root "tools") fp) modfileName)
              (Node.modf (dropRequire (D t.moduleStr) r.path ++ [⟨r.path, r.version, false⟩])))
          else .error ()
        else
          match Tool.filepath ⟨t.importPath, r.version⟩ with
          | none => .error ()
          | some vfp =>
            .ok (⟨t.importPath, r.version⟩,
              fsSet
                (if fsExists
                    (downloadWrite D fs t (join2 (join2 root "tools") fp)
                      (join2 (join2 (join2 root "tools") fp) modfileName))
                    (join2 (join2 root "tools") vfp) = true then
                  downloadWrite D fs t (join2 (join2 root "tools") fp)
                    (join2 (join2 (join2 root "tools") fp) modfileName)
                else
                  fsRename
                    (downloadWrite D fs t (join2 (join2 root "tools") fp)
                      (join2 (join2 (join2 root "tools") fp) modfileName))
                    (join2 (join2 root "tools") fp) (join2 (join2 root "tools") vfp))
                (join2 (join2 (join2 root "tools") vfp) modfileName)
                (Node.modf (dropRequire (D t.moduleStr) r.path ++ [⟨r.path, r.version, false⟩])))

/-- Cache.Install: require a nonempty import path, download, then build
into the binary path unless the binary already exists. -/
def installModel (D : String → List Require) (root : String)
    (fs : List (String × Node)) (t : Tool) : Except Unit (Tool × List (String × Node)) :=
  if t.importPath = "" then .error ()
  else
    match downloadModel D root fs t with
    | .error e => .error e
    | .ok (dt, fs') =>
      match dt.binaryFilepath with
      | none => .error ()
      | some bfp =>
        if fsExists fs' (join2 (join2 root "tools") bfp) = true then .ok (dt, fs')
        else .ok (dt, fsSet fs' (join2 (join2 root "tools") bfp) Node.bin)

lemma fsGet_fsSet_self (fs : List (String × Node)) (p : String) (v : Node) :
    fsGet (fsSet fs p v) p = some v := by
  induction fs with
  | nil => unfold fsSet fsGet; rw [if_pos rfl]
  | cons e rest ih =>
    obtain ⟨k, w⟩ := e
    unfold fsSet
    by_cases hk : k = p
    · rw [if_pos hk]; unfold fsGet; rw [if_pos rfl]
    · rw [if_neg hk]; unfold fsGet; rw [if_neg hk]; exact ih

lemma fsGet_fsSet_ne (fs : List (String × Node)) (p q : String) (v : Node)
    (hne : q ≠ p) : fsGet (fsSet fs p v) q = fsGet fs q := by
  induction fs with
  | nil =>
    unfold fsSet fsGet
    rw [if_neg (fun h => hne h.symm)]
    rfl
  | cons e rest ih =>
    obtain ⟨k, w⟩ := e
    unfold fsSet
    by_cases hk : k = p
    · rw [if_pos hk]
      unfold fsGet
      rw [if_neg (fun h => hne h.symm), if_neg (by rw [hk]; exact fun h => hne h.symm)]
    · rw [if_neg hk]
      unfold fsGet
      by_cases hkq : k = q
      · rw [if_pos hkq, if_pos hkq]
      · rw [if_neg hkq, if_neg hkq]; exact ih

lemma fsExists_fsSet_self (fs : List (String × Node)) (p : String) (v : Node) :
    fsExists (fsSet fs p v) p = true := by
  unfold fsExists
  rw [fsGet_fsSet_self]
  rfl

lemma strExt {x y : String} (h : x.data = y.data) : x = y := by
  cases x with
  | mk xd =>
    cases y with
    | mk yd => exact congrArg String.mk h

lemma str_app_slash_inj (P : List Char) (x y : String)
    (h : P ++ '/' :: x.data = P ++ '/' :: y.data) : x = y := by
  have h2 := List.append_cancel_left h
  injection h2 with _ h3
  exact strExt h3

lemma escapeChar_ne_nil (c : Char) : escapeChar c ≠ [] := by
  unfold escapeChar
  by_cases h : 'A' ≤ c ∧ c ≤ 'Z'
  · rw [if_pos h]; simp
  · rw [if_neg h]; simp

lemma escapeChars_eq_nil {l : List Char} (h : escapeChars l = []) : l = [] := by
  cases l with
  | nil => rfl
  | cons c cs =>
    exfalso
    have he : escapeChar c ++ escapeChars cs = [] := h
    exact escapeChar_ne_nil c (List.append_eq_nil.mp he).1

lemma escapeChars_eq_single {l : List Char} {c : Char} (h : escapeChars l = [c]) :
    l = [c] := by
  cases l with
  | nil => exact absurd h (by simp [escapeChars])
  | cons a as =>
    have he : escapeChar a ++ escapeChars as = [c] := h
    unfold escapeChar at he
    by_cases ha : 'A' ≤ a ∧ a ≤ 'Z'
    · rw [if_pos ha] at he
      have hl := congrArg List.length he
      simp only [List.length_append, List.length_cons, List.length_nil] at hl
      omega
    · rw [if_neg ha] at he
      simp only [List.cons_append, List.nil_append, List.cons.injEq] at he
      rw [he.1, escapeChars_eq_nil he.2]

lemma escapePath_facts {s ep : String} (h : escapePath s = some ep) :
    ep ≠ "" ∧ ep ≠ "." ∧ ep ≠ "/" := by
  unfold escapePath at h
  by_cases hc : checkPath s = true ∧ ¬s.data.contains '!' = true
  · rw [if_pos hc] at h
    injection h with h2
    have hed : ep.data = escapeChars s.data := by rw [← h2]
    refine ⟨?_, ?_, ?_⟩
    · intro he
      rw [he] at hed
      have hsd : s.data = [] := escapeChars_eq_nil hed.symm
      have hs : s = "" := (strData_nil_iff s).mp hsd
      rw [hs] at hc
      exact absurd hc.1 (by decide)
    · intro he
      rw [he] at hed
      have hsd : s.data = ['.'] := escapeChars_eq_single hed.symm
      have hs : s = "." := strExt hsd
      rw [hs] at hc
      exact absurd hc.1 (by decide)
    · intro he
      rw [he] at hed
      have hsd : s.data = ['/'] := escapeChars_eq_single hed.symm
      have hs : s = "/" := strExt hsd
      rw [hs] at hc
      exact absurd hc.1 (by decide)
  · rw [if_neg hc] at h
    exact absurd h (by simp)

lemma filepath_facts {t : Tool} {fp : String} (h : t.filepath = some fp) :
    fp ≠ "" ∧ fp ≠ "." ∧ fp ≠ "/" := by
  unfold Tool.filepath at h
  cases hep : escapePath t.importPath with
  | none => rw [hep] at h; exact absurd h (by simp)
  | some ep =>
    simp only [hep] at h
    by_cases hv : t.version = ""
    · rw [if_pos hv] at h
      injection h with h2
      rw [← h2]
      exact escapePath_facts hep
    · rw [if_neg hv] at h
      cases hev : escapeVersion t.version with
      | none => simp only [hev] at h; exact absurd h (by simp)
      | some ev =>
        simp only [hev] at h
        injection h with h2
        have hepf := escapePath_facts hep
        have hlen : 2 ≤ fp.data.length := by
          rw [← h2, strData_append, strData_append]
          have hat : ("@" : String).data = ['@'] := rfl
          rw [hat]
          cases hepd : ep.data with
          | nil => exact absurd ((strData_nil_iff ep).mp hepd) hepf.1
          | cons x xs =>
            simp only [List.length_append, List.length_cons]
            omega
        refine ⟨?_, ?_, ?_⟩
        · intro hfpe; rw [hfpe] at hlen; exact absurd hlen (by decide)
        · intro hfpe; rw [hfpe] at hlen; exact absurd hlen (by decide)
        · intro hfpe; rw [hfpe] at hlen; exact absurd hlen (by decide)

lemma binPath_ne_modfilePath (a fp name : String)
    (h1 : fp ≠ "") (h2 : fp ≠ ".") (h3 : fp ≠ "/") (hn : name ≠ "go.mod") :
    join2 a (fp ++ "/" ++ name) ≠ join2 (join2 a fp) "go.mod" := by
  intro he
  apply hn
  have hfpd : fp.data ≠ [] := fun hh => h1 ((strData_nil_iff fp).mp hh)
  have hslash : ("/" : String).data = ['/'] := rfl
  by_cases ha0 : a = ""
  · subst ha0
    have hL : join2 "" (fp ++ "/" ++ name) = fp ++ "/" ++ name := by
      unfold join2; rw [if_pos rfl]
    have hM : join2 "" fp = fp := by
      unfold join2; rw [if_pos rfl]
    have hR : join2 fp "go.mod" = fp ++ "/" ++ "go.mod" := by
      unfold join2; rw [if_neg h1, if_neg h2, if_neg h3]
    rw [hL, hM, hR] at he
    have hd := congrArg String.data he
    simp only [strData_append, hslash, List.append_assoc, List.cons_append,
      List.nil_append] at hd
    exact str_app_slash_inj fp.data name "go.mod" hd
  by_cases ha1 : a = "."
  · subst ha1
    have hL : join2 "." (fp ++ "/" ++ name) = fp ++ "/" ++ name := by
      unfold join2; rw [if_neg (by decide), if_pos rfl]
    have hM : join2 "." fp = fp := by
      unfold join2; rw [if_neg (by decide), if_pos rfl]
    have hR : join2 fp "go.mod" = fp ++ "/" ++ "go.mod" := by
      unfold join2; rw [if_neg h1, if_neg h2, if_neg h3]
    rw [hL, hM, hR] at he
    have hd := congrArg String.data he
    simp only [strData_append, hslash, List.append_assoc, List.cons_append,
      List.nil_append] at hd
    exact str_app_slash_inj fp.data name "go.mod" hd
  by_cases ha2 : a = "/"
  · subst ha2
    have hL : join2 "/" (fp ++ "/" ++ name) = "/" ++ (fp ++ "/" ++ name) := by
      unfold join2; rw [if_neg (by decide), if_neg (by decide), if_pos rfl]
    have hM : join2 "/" fp = "/" ++ fp := by
      unfold join2; rw [if_neg (by decide), if_neg (by decide), if_pos rfl]
    have hM1 : ("/" ++ fp) ≠ "" := by
      intro hh
      have hd := congrArg String.data hh
      rw [strData_append, hslash] at hd
      simp at hd
    have hM2 : ("/" ++ fp) ≠ "." := by
      intro hh
      have hd := congrArg String.data hh
      rw [strData_append, hslash] at hd
      simp at hd
    have hM3 : ("/" ++ fp) ≠ "/" := by
      intro hh
      have hd := congrArg String.data hh
      rw [strData_append, hslash] at hd
      simp at hd
      exact hfpd hd
    have hR : join2 ("/" ++ fp) "go.mod" = ("/" ++ fp) ++ "/" ++ "go.mod" := by
      unfold join2; rw [if_neg hM1, if_neg hM2, if_neg hM3]
    rw [hL, hM, hR] at he
    have hd := congrArg String.data he
    simp only [strData_append, hslash, List.append_assoc, List.cons_append,
      List.nil_append] at hd
    injection hd with _ hd2
    exact str_app_slash_inj fp.data name "go.mod" hd2
  · have had : a.data ≠ [] := fun hh => ha0 ((strData_nil_iff a).mp hh)
    have hL : join2 a (fp ++ "/" ++ name) = a ++ "/" ++ (fp ++ "/" ++ name) := by
      unfold join2; rw [if_neg ha0, if_neg ha1, if_neg ha2]
    have hM : join2 a fp = a ++ "/" ++ fp := by
      unfold join2; rw [if_neg ha0, if_neg ha1, if_neg ha2]
    have hMlen : 2 ≤ (a ++ "/" ++ fp).data.length := by
      rw [strData_append, strData_append, hslash]
      have h1a : 0 < a.data.length := List.length_pos.mpr had
      simp only [List.length_append, List.length_cons, List.length_nil]
      omega
    have hM1 : (a ++ "/" ++ fp) ≠ "" := by
      intro hh; rw [hh] at hMlen; exact absurd hMlen (by decide)
    have hM2 : (a ++ "/" ++ fp) ≠ "." := by
      intro hh; rw [hh] at hMlen; exact absurd hMlen (by decide)
    have hM3 : (a ++ "/" ++ fp) ≠ "/" := by
      intro hh; rw [hh] at hMlen; exact absurd hMlen (by decide)
    have hR : join2 (a ++ "/" ++ fp) "go.mod" = (a ++ "/" ++ fp) ++ "/" ++ "go.mod" := by
      unfold join2; rw [if_neg hM1, if_neg hM2, if_neg hM3]
    rw [hL, hM, hR] at he
    have hd := congrArg String.data he
    simp only [strData_append, hslash, List.append_assoc, List.cons_append,
      List.nil_append] at hd
    have hd2 := List.append_cancel_left hd
    injection hd2 with _ hd3
    exact str_app_slash_inj fp.data name "go.mod" hd3

lemma getModule_rewrite {rs : List Require} {t : Tool} {r : Require}
    (hr : getModule rs t = some r)
    (huniq : ∀ r₁ ∈ rs, ∀ r₂ ∈ rs, strHasPre t.importPath r₁.path = true →
      strHasPre t.importPath r₂.path = true → r₁.path = r₂.path)
    (v : String) :
    getModule (dropRequire rs r.path ++ [⟨r.path, v, false⟩]) t =
      some ⟨r.path, v, false⟩ := by
  have hr' : rs.find? (fun x => strHasPre t.importPath x.path) = some r := hr
  have hmem : r ∈ rs := List.mem_of_find?_eq_some hr'
  have hpred0 := List.find?_some hr'
  have hpred : strHasPre t.importPath r.path = true := hpred0
  unfold getModule
  have hnone : (dropRequire rs r.path).find?
      (fun x => strHasPre t.importPath x.path) = none := by
    rw [List.find?_eq_none]
    intro x hx hpx
    have hx' := List.mem_filter.mp hx
    have heq := huniq x hx'.1 r hmem hpx hpred
    have hne : x.path ≠ r.path := by
      have h2 := hx'.2
      simp at h2
      exact h2
    exact hne heq
  rw [List.find?_append, hnone]
  simp [List.find?_cons, hpred]

lemma downloadModel_semver {D : String → List Require} {root : String}
    {fs : List (String × Node)} {t dt : Tool} {fs' : List (String × Node)}
    (hsv : t.hasSemver = true)
    (huniq : ∀ r₁ ∈ D t.moduleStr, ∀ r₂ ∈ D t.moduleStr,
      strHasPre t.importPath r₁.path = true → strHasPre t.importPath r₂.path = true →
      r₁.path = r₂.path)
    (h : downloadModel D root fs t = .ok (dt, fs')) :
    dt = t ∧ ∃ fp, t.filepath = some fp ∧
      skipDownload fs' t (join2 (join2 (join2 root "tools") fp) modfileName) = true := by
  unfold downloadModel at h
  cases hfp : t.filepath with
  | none =>
    simp only [hfp] at h
    exact absurd h (by simp)
  | some fp =>
    simp only [hfp] at h
    by_cases hskip : skipDownload fs t (join2 (join2 (join2 root "tools") fp) modfileName) = true
    · rw [if_pos ⟨hsv, hskip⟩] at h
      injection h with h2
      injection h2 with hdt hfs
      refine ⟨hdt.symm, fp, rfl, ?_⟩
      rw [← hfs]
      exact hskip
    · rw [if_neg (fun hc => hskip hc.2)] at h
      cases hgm : getModule (D t.moduleStr) t with
      | none =>
        simp only [hgm] at h
        exact absurd h (by simp)
      | some r =>
        simp only [hgm] at h
        rw [if_pos hsv] at h
        by_cases hvv : r.version = t.version
        · rw [if_pos hvv] at h
          injection h with h2
          injection h2 with hdt hfs
          refine ⟨hdt.symm, fp, rfl, ?_⟩
          rw [← hfs]
          unfold skipDownload
          simp only [fsGet_fsSet_self]
          simp only [getModule_rewrite hgm huniq r.version]
          simp [hvv]
        · rw [if_neg hvv] at h
          exact absurd h (by simp)

/-- C7 amended: Install is idempotent for a tool with a canonical semantic
version whose binary name is not go.mod and whose resolved requires match
the import path along a single module path: a second run on the state the
first successful run produced returns the same resolved tool and leaves
the filesystem exactly unchanged, skipping both the download (the valid
manifest exists) and the build (the binary exists). -/
theorem install_idempotent
    (D : String → List Require) (root : String)
    (s₀ s₁ : List (String × Node)) (t t₁ : Tool)
    (hsv : t.hasSemver = true)
    (hname : t.name ≠ "go.mod")
    (huniq : ∀ r₁ ∈ D t.moduleStr, ∀ r₂ ∈ D t.moduleStr,
      strHasPre t.importPath r₁.path = true → strHasPre t.importPath r₂.path = true →
      r₁.path = r₂.path)
    (h1 : installModel D root s₀ t = .ok (t₁, s₁)) :
    installModel D root s₁ t = .ok (t₁, s₁) ∧ t₁ = t := by
  unfold installModel at h1
  by_cases hip : t.importPath = ""
  · rw [if_pos hip] at h1; exact absurd h1 (by simp)
  rw [if_neg hip] at h1
  cases hdl : downloadModel D root s₀ t with
  | error e =>
    simp only [hdl] at h1
    exact absurd h1 (by simp)
  | ok pr =>
    obtain ⟨dt, fs'⟩ := pr
    simp only [hdl] at h1
    obtain ⟨hdt, fp, hfp, hskip'⟩ := downloadModel_semver hsv huniq hdl
    subst hdt
    have hbfp : dt.binaryFilepath = some (fp ++ "/" ++ dt.name) := by
      unfold Tool.binaryFilepath
      rw [hfp]
      rfl
    simp only [hbfp] at h1
    have hfacts := filepath_facts hfp
    have hne : join2 (join2 root "tools") (fp ++ "/" ++ dt.name) ≠
        join2 (join2 (join2 root "tools") fp) modfileName :=
      binPath_ne_modfilePath (join2 root "tools") fp dt.name
        hfacts.1 hfacts.2.1 hfacts.2.2 hname
    by_cases hbin : fsExists fs' (join2 (join2 root "tools") (fp ++ "/" ++ dt.name)) = true
    · rw [if_pos hbin] at h1
      injection h1 with h2
      injection h2 with ht hs
      subst hs
      refine ⟨?_, ht.symm⟩
      unfold installModel
      rw [if_neg hip]
      have hdl2 : downloadModel D root fs' dt = .ok (dt, fs') := by
        unfold downloadModel
        simp only [hfp]
        rw [if_pos ⟨hsv, hskip'⟩]
      simp only [hdl2, hbfp]
      rw [if_pos hbin, ht]
    · rw [if_neg hbin] at h1
      injection h1 with h2
      injection h2 with ht hs
      subst hs
      refine ⟨?_, ht.symm⟩
      unfold installModel
      rw [if_neg hip]
      have hskip2 : skipDownload
          (fsSet fs' (join2 (join2 root "tools") (fp ++ "/" ++ dt.name)) Node.bin) dt
          (join2 (join2 (join2 root "tools") fp) modfileName) = true := by
        unfold skipDownload
        rw [fsGet_fsSet_ne _ _ _ _ (fun hh => hne hh.symm)]
        exact hskip'
      have hdl2 : downloadModel D root
          (fsSet fs' (join2 (join2 root "tools") (fp ++ "/" ++ dt.name)) Node.bin) dt =
          .ok (dt, fsSet fs' (join2 (join2 root "tools") (fp ++ "/" ++ dt.name)) Node.bin) := by
        unfold downloadModel
        simp only [hfp]
        rw [if_pos ⟨hsv, hskip2⟩]
      simp only [hdl2, hbfp]
      rw [if_pos (fsExists_fsSet_self _ _ _), ht]

/-- A concrete toolchain driver resolving example.com/a to v1.0.0, for the
install witness and counterexample. -/
def c7D : String → List Require :=
  fun q => if q = "example.com/a@v1.0.0" ∨ q = "example.com/a" then
    [⟨"example.com/a", "v1.0.0", false⟩] else []

/-- The cache state after a first successful install of example.com/a. -/
def c7FS1 : List (String × Node) :=
  [("root/tools/example.com/a@v1.0.0", Node.dir),
   ("root/tools/example.com/a@v1.0.0/go.mod",
     Node.modf [⟨"example.com/a", "v1.0.0", false⟩]),
   ("root/tools/example.com/a@v1.0.0/a", Node.bin)]

/-- The cache state after installing the unversioned example.com/a twice:
the scratch directory and its manifest are left behind. -/
def c7FS2 : List (String × Node) :=
  [("root/tools/example.com/a@v1.0.0", Node.dir),
   ("root/tools/example.com/a@v1.0.0/go.mod",
     Node.modf [⟨"example.com/a", "v1.0.0", false⟩]),
   ("root/tools/example.com/a@v1.0.0/a", Node.bin),
   ("root/tools/example.com/a", Node.dir),
   ("root/tools/example.com/a/go.mod",
     Node.modf [⟨"example.com/a", "v1.0.0", false⟩])]

/-- C7 witness: rerunning the install of example.com/a at v1.0.0 on the
state the first run produced returns the same tool and the identical
state. -/
theorem install_idempotent_witness :
    installModel c7D "root" c7FS1 ⟨"example.com/a", "v1.0.0"⟩ =
      .ok (⟨"example.com/a", "v1.0.0"⟩, c7FS1) :=
  (install_idempotent c7D "root" [] c7FS1 ⟨"example.com/a", "v1.0.0"⟩
    ⟨"example.com/a", "v1.0.0"⟩ (by decide) (by decide) (by decide) (by decide)).1

/-- C7 counterexample to the claim as stated: for a tool without a
semantic version the two runs resolve to the same tool but the second run
leaves different on-disk artefacts: the first install of unversioned
example.com/a renames the scratch directory away, while the rerun
recreates the scratch manifest root/tools/example.com/a/go.mod and, since
the versioned directory already exists, never renames it away, so the
state after run two differs from the state after run one. -/
theorem install_idempotent_counterexample :
    installModel c7D "root" [] ⟨"example.com/a", ""⟩ =
      .ok (⟨"example.com/a", "v1.0.0"⟩, c7FS1) ∧
    installModel c7D "root" c7FS1 ⟨"example.com/a", ""⟩ =
      .ok (⟨"example.com/a", "v1.0.0"⟩, c7FS2) ∧
    fsExists c7FS1 "root/tools/example.com/a/go.mod" = false ∧
    fsExists c7FS2 "root/tools/example.com/a/go.mod" = true := by
  refine ⟨by decide, by decide, by decide, by decide⟩

end Shed
